import Mathlib

/-!
# sentinel-agent: event store, policy store, modules, scheduler tick and run loop,
gateway client and policy fetcher

A shallow embedding of the Go sources under `internal/` and theorems about it.
SQLite tables are lists of rows in rowid order, `time.Time` is an instant plus a
zone offset, and the outcome of every call that leaves the process (HTTP, JSON
and YAML codecs, process enumeration) is an explicit argument.
-/

namespace Sentinel

/-! ## time.Time and `Format(time.RFC3339)` -/

/-- A `time.Time`: `sec` seconds and `nsec` nanoseconds since 0001-01-01T00:00:00Z,
shown in a zone `offset` seconds east of UTC. -/
structure Time where
  sec : Int
  nsec : Nat
  offset : Int
deriving DecidableEq, Repr

namespace Time

/-- `Time.IsZero`: the instant is January 1, year 1, 00:00:00 UTC (the zone plays no part). -/
def IsZero (t : Time) : Bool := t.sec == 0 && t.nsec == 0

/-- `Time.UTC`: the same instant, shown in UTC. -/
def UTC (t : Time) : Time := { t with offset := 0 }

/-- `Time.Before`: comparison of instants. -/
def Before (t u : Time) : Bool := t.sec < u.sec || (t.sec == u.sec && t.nsec < u.nsec)

end Time

/-- `appendInt` of package time: decimal digits of `x`, zero-padded to `width`, a
leading minus sign for a negative `x`. -/
def appendInt (x : Int) (width : Nat) : String :=
  let digits := Nat.repr x.natAbs
  let padded := String.mk (List.replicate (width - digits.length) '0') ++ digits
  if x < 0 then "-" ++ padded else padded

/-! The proleptic Gregorian date of a day number, counted from 0001-01-01 (day 0). As in
`absDate` of package time the day number is cut into cycles of 400, 100, 4 and 1 years; the
years are counted from March 1, which puts the leap day at the end of its cycle. -/

/-- The 400-year cycle of a day, counted from 0000-03-01. -/
def era (days : Int) : Int := (days + 306) / 146097

/-- The day within its 400-year cycle, 0 to 146096. -/
def dayOfEra (days : Int) : Int := (days + 306) % 146097

/-- The century within the 400-year cycle, 0 to 3; the last one has one day more. -/
def century (doe : Int) : Int := min (doe / 36524) 3

/-- The day within its century, 0 to 36524. -/
def dayOfCentury (doe : Int) : Int := doe - 36524 * century doe

/-- The 4-year cycle within the century, 0 to 24. -/
def quad (doc : Int) : Int := doc / 1461

/-- The day within its 4-year cycle, 0 to 1460. -/
def dayOfQuad (doc : Int) : Int := doc % 1461

/-- The year within the 4-year cycle, 0 to 3; the last one has the leap day. -/
def yearOfQuad (doq : Int) : Int := min (doq / 365) 3

/-- The day within its year from March 1, 0 to 365. -/
def dayOfYear (doq : Int) : Int := doq - 365 * yearOfQuad doq

/-- The month counted from March (0) to February (11). -/
def monthIndex (doy : Int) : Int := (5 * doy + 2) / 153

/-- The day of the month, 1 to 31. -/
def dayOfMonth (doy : Int) : Int := doy - (153 * monthIndex doy + 2) / 5 + 1

/-- Proleptic Gregorian (year, month, day) of the day number `days` counted from
0001-01-01 (day 0). -/
def civilDate (days : Int) : Int × Int × Int :=
  let doe := dayOfEra days
  let doc := dayOfCentury doe
  let doq := dayOfQuad doc
  let doy := dayOfYear doq
  let m := if monthIndex doy < 10 then monthIndex doy + 3 else monthIndex doy - 9
  let y := 400 * era days + 100 * century doe + 4 * quad doc + yearOfQuad doq
    + (if m ≤ 2 then 1 else 0)
  (y, m, dayOfMonth doy)

/-- The zone suffix of layout `Z07:00`: `Z` for offset zero, else sign, hours, colon, minutes. -/
def formatZone (offset : Int) : String :=
  if offset = 0 then "Z"
  else
    let zone := Int.tdiv offset 60
    let sign := if zone < 0 then "-" else "+"
    let zabs : Int := zone.natAbs
    sign ++ appendInt (zabs / 60) 2 ++ ":" ++ appendInt (zabs % 60) 2

/-- `t.Format(time.RFC3339)`, layout `2006-01-02T15:04:05Z07:00`: the wall clock of `t` in
its own zone to the second (nanoseconds are dropped), then the zone suffix. -/
def formatRFC3339 (t : Time) : String :=
  let abs := t.sec + t.offset
  let days := abs / 86400
  let rem := abs % 86400
  let ymd := civilDate days
  appendInt ymd.1 4 ++ "-" ++ appendInt ymd.2.1 2 ++ "-" ++ appendInt ymd.2.2 2 ++ "T"
    ++ appendInt (rem / 3600) 2 ++ ":" ++ appendInt (rem % 3600 / 60) 2 ++ ":"
    ++ appendInt (rem % 60) 2 ++ formatZone t.offset

/-- Seconds from 0001-01-01T00:00:00Z to 1970-01-01T00:00:00Z (`unixToInternal`). -/
def unixToInternal : Int := 62135596800

/-- `time.Unix(sec, nsec).UTC()` for `nsec` below one second. -/
def unixUTC (sec : Int) (nsec : Nat) : Time := ⟨sec + unixToInternal, nsec, 0⟩

/-- SQLite compares TEXT values under the BINARY collation, byte by byte; on UTF-8 text that
is the lexicographic order of the code points, which is the order of this key. -/
def textKey (s : String) : List Nat := s.data.map Char.toNat

/-- `LIMIT n` of a SELECT: a negative `n` puts no bound on the number of rows (SQLite), an
`n ≥ 0` keeps the first `n` rows. -/
def sqlLimit {α : Type} (limit : Int) (rows : List α) : List α :=
  if limit < 0 then rows else rows.take limit.toNat

/-! ## internal/events: the event and its SQLite store -/

/-- `events.Event`. The field `Typ` is the source's `Type`. -/
structure Event where
  ID : Int
  Timestamp : Time
  Typ : String
  Payload : String
deriving DecidableEq, Repr

/-- A slice of events. -/
abbrev Events := List Event

namespace events

/-- A row of table `events(id INTEGER PRIMARY KEY AUTOINCREMENT, timestamp, type, payload)`. -/
structure Row where
  id : Int
  timestamp : String
  type : String
  payload : String
deriving DecidableEq, Repr

/-- The database behind `sqliteStore`: the rows of table `events` in rowid order and the
largest rowid ever handed out (table `sqlite_sequence`, kept by AUTOINCREMENT). -/
structure sqliteStore where
  rows : List Row
  seq : Int
deriving DecidableEq, Repr

/-- The largest signed 64-bit integer, the largest rowid. -/
def maxInt64 : Int := 9223372036854775807

/-- The largest rowid in the table (0 for an empty table). -/
def maxRowid (rows : List Row) : Int := (rows.map (·.id)).foldr max 0

/-- `sqliteStore.Save`: `INSERT INTO events(timestamp, type, payload) VALUES (?, ?, ?)` with the
timestamp as RFC3339 text. AUTOINCREMENT picks one more than the largest rowid ever used and
fails with SQLITE_FULL when that was the largest integer. The event's own `ID` is not used. -/
def sqliteStore.Save (s : sqliteStore) (e : Event) : Except String sqliteStore :=
  let last := max s.seq (maxRowid s.rows)
  if maxInt64 ≤ last then .error "database or disk is full"
  else .ok { rows := s.rows ++ [⟨last + 1, formatRFC3339 e.Timestamp, e.Typ, e.Payload⟩],
             seq := last + 1 }

/-- `ORDER BY id DESC`. -/
def orderByIdDesc (rows : List Row) : List Row :=
  rows.insertionSort (fun a b => b.id ≤ a.id)

/-- `sqliteStore.List`: `SELECT id, timestamp, type, payload FROM events ORDER BY id DESC LIMIT ?`
with `limit` bound to the parameter, each row scanned into an `Event` whose timestamp is
`time.Parse(time.RFC3339, ts)` (argument `parse`: the zero time when parsing fails). -/
def sqliteStore.List (parse : String → Time) (s : sqliteStore) (limit : Int) : Events :=
  (sqlLimit limit (orderByIdDesc s.rows)).map
    (fun r => { ID := r.id, Timestamp := parse r.timestamp, Typ := r.type, Payload := r.payload })

/-- A run of `Save` calls that all succeed, in order; the first failure ends it. -/
def saveAll : sqliteStore → Events → Except String sqliteStore
  | s, [] => .ok s
  | s, e :: es =>
    match s.Save e with
    | .ok s1 => saveAll s1 es
    | .error m => .error m

/-- The store of a database file that has just been created. -/
def emptyStore : sqliteStore := ⟨[], 0⟩

/-- Rowids strictly ascending along the table. -/
def Ascending (rows : List Row) : Prop := (rows.map (·.id)).Pairwise (· < ·)

end events

/-! ## internal/policy: the policy document and its SQLite store -/

/-- `policy.Policy`. -/
structure Policy where
  ID : String
  Name : String
  Raw : String
  Updated : Time
deriving DecidableEq, Repr

namespace policy

/-- A row of table `policies(id TEXT PRIMARY KEY, name TEXT, raw TEXT NOT NULL, updated TEXT
NOT NULL)`. The column `name` may hold NULL (`none`). -/
structure Row where
  id : String
  name : Option String
  raw : String
  updated : String
deriving DecidableEq, Repr

/-- The database behind `DBStore`: the rows of table `policies` in rowid order. -/
structure DBStore where
  rows : List Row
deriving DecidableEq, Repr

/-- Row `a` sorts no later than row `b` under `ORDER BY updated DESC`. -/
def updatedDesc (a b : Row) : Prop := textKey b.updated ≤ textKey a.updated

instance : DecidableRel updatedDesc := fun a b =>
  inferInstanceAs (Decidable (textKey b.updated ≤ textKey a.updated))

/-- `ORDER BY updated DESC`: a stable sort, so rows with equal `updated` text stay in rowid
order, the order in which SQLite's sorter delivers them (SQL itself leaves it open). -/
def orderByUpdatedDesc (rows : List Row) : List Row := rows.insertionSort updatedDesc

/-- `DBStore.Get`: `SELECT id, name, raw, updated FROM policies ORDER BY updated DESC LIMIT 1`;
`nil` whenever `Scan` returns an error, which it does when there is no row and when the name
of the row is NULL (it cannot be scanned into a string); else the row as a policy whose
`Updated` is `time.Parse(time.RFC3339, updated)` (argument `parse`). A failure of the
database itself (closed, locked) also gives `nil` in the source; like the failures of `Set`
it has no counterpart in this table of rows. -/
def DBStore.Get (parse : String → Time) (s : DBStore) : Option Policy :=
  match sqlLimit 1 (orderByUpdatedDesc s.rows) with
  | [] => none
  | r :: _ =>
    match r.name with
    | none => none
    | some name => some { ID := r.id, Name := name, Raw := r.raw, Updated := parse r.updated }

/-- `INSERT ... ON CONFLICT(id) DO UPDATE SET name, raw, updated = excluded...`: a row with the
same id is overwritten in place, otherwise the row is added at the end. -/
def upsert (rows : List Row) (r : Row) : List Row :=
  if rows.any (fun x => x.id == r.id) then rows.map (fun x => if x.id = r.id then r else x)
  else rows ++ [r]

/-- The id `Set` writes under: `active` for the empty id. -/
def normalizeID (id : String) : String := if id = "" then "active" else id

/-- The `updated` value `Set` writes: the policy's own, or `time.Now().UTC()` when that is the
zero time. -/
def effectiveUpdated (p : Policy) (now : Time) : Time :=
  if p.Updated.IsZero then now.UTC else p.Updated

/-- `DBStore.Set`: nothing for a nil policy; otherwise an upsert of the policy under its
normalised id with `updated` as RFC3339 text. `now` is the reading of `time.Now()`. -/
def DBStore.Set (s : DBStore) (p : Option Policy) (now : Time) : DBStore :=
  match p with
  | none => s
  | some p =>
    { rows := upsert s.rows
        ⟨normalizeID p.ID, some p.Name, p.Raw, formatRFC3339 (effectiveUpdated p now)⟩ }

/-- The `updated` text stored under `id`, if there is a row for it. -/
def storedUpdated (s : DBStore) (id : String) : Option String :=
  (s.rows.find? (fun r => r.id == id)).map (·.updated)

/-- A run of `Set` calls, each with the policy passed and the clock reading at the call. -/
def setAll (s : DBStore) (calls : List (Policy × Time)) : DBStore :=
  calls.foldl (fun s c => s.Set (some c.1) c.2) s

/-- The RFC3339 text that the call `c` stores. -/
def storedText (c : Policy × Time) : String := formatRFC3339 (effectiveUpdated c.1 c.2)

/-- The store over a database file without policies. -/
def emptyStore : DBStore := ⟨[]⟩

/-- The row that the call `c` writes. -/
def writtenRow (c : Policy × Time) : Row :=
  ⟨normalizeID c.1.ID, some c.1.Name, c.1.Raw, storedText c⟩

instance : IsTotal Row updatedDesc :=
  ⟨fun a b => le_total (textKey b.updated) (textKey a.updated)⟩

instance : IsTrans Row updatedDesc :=
  ⟨fun a b c hab hbc =>
    @le_trans (List Nat) _ (textKey c.updated) (textKey b.updated) (textKey a.updated) hbc hab⟩

end policy

/-- The default policy that `service.New` seeds when the store has none. -/
def defaultPolicy : Policy :=
  { ID := "active"
    Name := "default"
    Raw := "\x7b\"version\":1,\"rules\":[\x7b\"id\":\"p1\",\"type\":\"block_process\",\"match\":\"cmd.exe\",\"action\":\"alert\"\x7d,\x7b\"id\":\"p2\",\"type\":\"block_process\",\"match\":\"notepad.exe\",\"action\":\"alert\"\x7d]\x7d"
    Updated := ⟨0, 0, 0⟩ }

/-- The seeding step of `service.New`: `if s.pol.Get() == nil { _ = s.pol.Set(defaultPolicy) }`. -/
def seedDefault (parse : String → Time) (pol : policy.DBStore) (now : Time) : policy.DBStore :=
  if (pol.Get parse).isNone then pol.Set (some defaultPolicy) now else pol

/-! ## Dynamic values and the processes of the host -/

/-- A value of type `any` as the JSON and YAML decoders build it and the JSON encoder reads
it: nil, a boolean, an integer, a float (kept as text), a string, a slice or a string-keyed
map. -/
inductive Any where
  | null
  | bool (b : Bool)
  | int (n : Int)
  | float (text : String)
  | string (s : String)
  | array (items : List Any)
  | object (fields : List (String × Any))

/-- A `map[string]any`: the entry of a key is the first pair that carries it. -/
abbrev GoMap := List (String × Any)

/-- The two results of `v, ok := m[key].(string)`: the string and true when the entry
exists and holds a string, the empty string and false otherwise. -/
def assertString (m : GoMap) (key : String) : String × Bool :=
  match m.lookup key with
  | some (Any.string s) => (s, true)
  | _ => ("", false)

/-- A process of `proc.Processes()`: its pid and the first result of `Name()` (the empty
string when the name cannot be read; the error is dropped by the callers). -/
structure Process where
  Pid : Int
  Name : String
deriving DecidableEq, Repr

/-! ## internal/modules: the module contract, the registry and the policy enforcer -/

/-- The two results of a module's `Run`: the events and the error (`none` for nil). -/
structure RunResult where
  evts : Events
  err : Option String
deriving DecidableEq, Repr

/-- A `modules.Module` over a world of type `σ` (stores, host, network): its name and its
`Run`, which may read and change the world. -/
structure Module (σ : Type) where
  Name : String
  Run : σ → RunResult × σ

/-- A slice of modules. -/
abbrev Modules (σ : Type) := List (Module σ)

/-- `modules.Registry` (the mutex apart). -/
structure Registry (σ : Type) where
  mods : Modules σ

/-- `modules.NewRegistry`. -/
def NewRegistry (σ : Type) : Registry σ := ⟨[]⟩

/-- `Registry.Register`: append. -/
def Registry.Register {σ : Type} (r : Registry σ) (m : Module σ) : Registry σ :=
  ⟨r.mods ++ [m]⟩

/-- `Registry.List`: a copy of the registered modules, in registration order. -/
def Registry.List {σ : Type} (r : Registry σ) : Modules σ := r.mods

/-- The anonymous struct `doc` that `policyEnforcer.Run` unmarshals the raw policy into. -/
structure RuleDoc where
  Version : Int
  Rules : List GoMap

/-- The inner loop of `policyEnforcer.Run`: one appended event per process whose name
equals `mtch`. -/
def matchProcesses (marshal : Any → String) (policyID rid mtch : String) (now : Time)
    (procs : List Process) (evts : Events) : Events :=
  procs.foldl (fun evts pr =>
    let name := pr.Name
    if name = mtch then
      evts ++ [{ ID := 0, Timestamp := now, Typ := "policy_violation",
                 Payload := marshal (Any.object [("policy_id", Any.string policyID),
                   ("rule_id", Any.string rid),
                   ("process", Any.object [("name", Any.string name),
                     ("pid", Any.int pr.Pid)])]) }]
    else evts) evts

/-- The outer loop of `policyEnforcer.Run` over the rules of the document. -/
def enforceRules (marshal : Any → String) (policyID : String) (now : Time)
    (procs : List Process) (rules : List GoMap) : Events :=
  rules.foldl (fun evts r =>
    if (assertString r "type").2 && (assertString r "type").1 == "block_process" then
      matchProcesses marshal policyID (assertString r "id").1 (assertString r "match").1 now
        procs evts
    else evts) []

/-- `policyEnforcer.Run`. `pstore` is the policy store of the enforcer, `unmarshal` is
`json.Unmarshal` into the rule document, `marshal` is `json.Marshal`, `processes` the outcome of
`proc.Processes()` and `now` the reading of `time.Now()`. Log lines are left out. -/
def policyEnforcer.Run (parse : String → Time) (unmarshal : String → Except String RuleDoc)
    (marshal : Any → String) (pstore : policy.DBStore)
    (processes : Except String (List Process)) (now : Time) : RunResult :=
  match pstore.Get parse with
  | none => ⟨[], none⟩
  | some p =>
    if p.Raw = "" then ⟨[], none⟩
    else
      match unmarshal p.Raw with
      | .error _ => ⟨[], none⟩
      | .ok doc =>
        match processes with
        | .error e => ⟨[], some e⟩
        | .ok procs => ⟨enforceRules marshal p.ID now.UTC procs doc.Rules, none⟩

/-- Whether rule `r` has a `type` entry holding the string `block_process`. -/
def isBlockProcess (r : GoMap) : Bool :=
  match r.lookup "type" with
  | some (Any.string s) => s == "block_process"
  | _ => false

/-- The string under `key` of rule `r`; an entry that is absent or not a string reads as the
empty string. -/
def ruleField (r : GoMap) (key : String) : String :=
  match r.lookup key with
  | some (Any.string s) => s
  | _ => ""

/-- The violation event of rule `r` and process `p` under the policy `policyID`: type
`policy_violation`, the payload the JSON of policy id, rule id (read as a string) and the
name and pid of the process. -/
def violationEvent (marshal : Any → String) (policyID : String) (now : Time) (r : GoMap)
    (p : Process) : Event :=
  { ID := 0, Timestamp := now, Typ := "policy_violation",
    Payload := marshal (Any.object [("policy_id", Any.string policyID),
      ("rule_id", Any.string (ruleField r "id")),
      ("process", Any.object [("name", Any.string p.Name), ("pid", Any.int p.Pid)])]) }

/-- The string under `key` of rule `r`, when the entry exists and holds a string. -/
def ruleString (r : GoMap) (key : String) : Option String :=
  match r.lookup key with
  | some (Any.string s) => some s
  | _ => none

/-- The violations as the claim first words them, read strictly: one event for each pair of
a rule whose `type` is the string `block_process` and a process whose name is equal to the
string that the rule has as `match`, in rule order and then process order; the payload carries
the policy id, the `id` entry of the rule as it stands, and the name and pid of the
process. A rule without a string `match` has no such pair. -/
def violationsStrict (marshal : Any → String) (policyID : String) (now : Time)
    (procs : List Process) (rules : List GoMap) : Events :=
  (rules.filter (fun r => ruleString r "type" = some "block_process")).flatMap (fun r =>
    (procs.filter (fun p => ruleString r "match" = some p.Name)).map (fun p =>
      { ID := 0, Timestamp := now, Typ := "policy_violation",
        Payload := marshal (Any.object [("policy_id", Any.string policyID),
          ("rule_id", (r.lookup "id").getD Any.null),
          ("process", Any.object [("name", Any.string p.Name), ("pid", Any.int p.Pid)])]) }))

/-- The violations as the amended claim words them: as above, with a `match` or `id` entry
that is absent or not a string read as the empty string. -/
def violationsSpec (marshal : Any → String) (policyID : String) (now : Time)
    (procs : List Process) (rules : List GoMap) : Events :=
  (rules.filter isBlockProcess).flatMap (fun r =>
    (procs.filter (fun p => p.Name = ruleField r "match")).map
      (violationEvent marshal policyID now r))

/-! ## internal/gateway: the HTTP gateway client -/

/-- The outcomes of the calls a client makes into `encoding/json` and `net/http`:
`marshal` is `json.Marshal` of an event batch, `newRequest` the error (if any) of
`http.NewRequestWithContext` for a URL, and `roundTrip` is `Client.Do` for a URL and body:
a transport error, or the status code of the response. -/
structure Net where
  marshal : Events → Except String String
  newRequest : String → Option String
  roundTrip : String → String → Except String Int

/-- `gateway.httpClient` (the `http.Client` with its timeout apart). -/
structure httpClient where
  url : String
deriving DecidableEq, Repr

/-- `gateway.NewHTTPClient`. -/
def NewHTTPClient (url : String) : httpClient := ⟨url⟩

/-- `httpClient.SendEvents`: `none` is a nil error. The request is built twice, as in the
source, and sent once. -/
def httpClient.SendEvents (net : Net) (h : httpClient) (evts : Events) : Option String :=
  if h.url = "" then none
  else
    match net.marshal evts with
    | .error e => some e
    | .ok payload =>
      match net.newRequest h.url with
      | some e => some e
      | none =>
        match net.newRequest h.url with
        | some e => some e
        | none =>
          match net.roundTrip h.url payload with
          | .error e => some e
          | .ok status =>
            if status ≥ 400 then some ("gateway returned status " ++ toString status)
            else none

/-! ## internal/service: the tick and the policy fetcher -/

/-- What a tick or a fetch cycle does to its collaborators, in order: log lines, module
runs with their results, `Save` and `SendEvents` calls with their outcomes, `Set` calls. -/
inductive Call where
  | info (msg : String) (kv : List String)
  | error (msg : String) (kv : List String)
  | run (name : String) (result : RunResult)
  | save (e : Event) (err : Option String)
  | send (evts : Events) (err : Option String)
  | set (p : Policy)
deriving DecidableEq, Repr

/-- The part of `service.Service` a tick uses, over a world `σ`: the registry, `s.store.Save`
and `s.gc.SendEvents` (`none` for a nil client), each with its outcome and effect on
the world. -/
structure Service (σ : Type) where
  mods : Registry σ
  store : Event → σ → Option String × σ
  gc : Option (Events → σ → Option String × σ)

/-- The loop `for _, e := range evts` of `runOnce`: every event is saved, a failure is logged
and the loop goes on. -/
def saveEach {σ : Type} (save : Event → σ → Option String × σ) : Events → σ → σ × List Call
  | [], w => (w, [])
  | e :: es, w =>
    let r := save e w
    let rest := saveEach save es r.2
    let logged := match r.1 with
      | some m => [Call.error "failed to save event" ["err", m]]
      | none => []
    (rest.1, Call.save e r.1 :: logged ++ rest.2)

/-- The `attempt to send` step of `runOnce`: one `SendEvents` call when the client is not
nil, its failure logged. -/
def sendBatch {σ : Type} (gc : Option (Events → σ → Option String × σ)) (evts : Events)
    (w : σ) : σ × List Call :=
  match gc with
  | none => (w, [])
  | some send =>
    let r := send evts w
    let logged := match r.1 with
      | some m => [Call.error "gateway send failed" ["err", m]]
      | none => []
    (r.2, Call.send evts r.1 :: logged)

/-- What `runOnce` does with the result of one module: log the error, or, for a non-empty
result, save every event and then send the batch. -/
def handleResult {σ : Type} (svc : Service σ) (name : String) (res : RunResult) (w : σ) :
    σ × List Call :=
  match res.err with
  | some e => (w, [Call.error "module run error" ["module", name, "err", e]])
  | none =>
    if res.evts.length > 0 then
      let saved := saveEach svc.store res.evts w
      let sent := sendBatch svc.gc res.evts saved.1
      (sent.1, saved.2 ++ sent.2)
    else (w, [])

/-- The loop `for _, m := range mods` of `runOnce`. -/
def runModules {σ : Type} (svc : Service σ) : Modules σ → σ → σ × List Call
  | [], w => (w, [])
  | m :: ms, w =>
    let r := m.Run w
    let handled := handleResult svc m.Name r.1 r.2
    let rest := runModules svc ms handled.1
    (rest.1, Call.info "running module" ["module", m.Name] :: Call.run m.Name r.1
      :: handled.2 ++ rest.2)

/-- `Service.runOnce`: one tick over a snapshot of the registry. Returns the world after the
tick and what the tick did. -/
def Service.runOnce {σ : Type} (svc : Service σ) (w : σ) : σ × List Call :=
  let r := runModules svc svc.mods.List w
  (r.1, Call.info "running modules" [] :: r.2)

/-- The names of the modules that were run, in order. -/
def ranNames : List Call → List String
  | [] => []
  | Call.run n _ :: t => n :: ranNames t
  | _ :: t => ranNames t

/-- The results the modules returned, in order. -/
def ranResults : List Call → List RunResult
  | [] => []
  | Call.run _ r :: t => r :: ranResults t
  | _ :: t => ranResults t

/-- The events handed to `Save`, in call order. -/
def savedEvents : List Call → Events
  | [] => []
  | Call.save e _ :: t => e :: savedEvents t
  | _ :: t => savedEvents t

/-- A call to the event store or to the gateway, without its outcome. -/
inductive Effect where
  | save (e : Event)
  | send (evts : Events)
deriving DecidableEq, Repr

/-- The `Save` and `SendEvents` calls of a trace, in call order. -/
def effects : List Call → List Effect
  | [] => []
  | Call.save e _ :: t => Effect.save e :: effects t
  | Call.send evts _ :: t => Effect.send evts :: effects t
  | _ :: t => effects t

/-- The events a tick is to persist according to the specification: those of every module
that returned no error, in module order and then in the order produced. -/
def persistSpec (results : List RunResult) : Events :=
  results.flatMap (fun r => if r.err.isNone then r.evts else [])

/-- The store and gateway calls of a tick according to the specification: for each module
with a non-empty result and no error, one `Save` per event and then one `SendEvents` with the
whole batch; nothing for the other modules. -/
def effectsSpec (results : List RunResult) : List Effect :=
  results.flatMap (fun r =>
    if r.err.isNone ∧ r.evts ≠ [] then r.evts.map Effect.save ++ [Effect.send r.evts] else [])

/-- The `Save` calls of a trace with what each returned, in call order. -/
def saveCalls : List Call → List (Event × Option String)
  | [] => []
  | Call.save e err :: t => (e, err) :: saveCalls t
  | _ :: t => saveCalls t

/-- The `SendEvents` calls of a trace with what each returned, in call order. -/
def sendCalls : List Call → List (Events × Option String)
  | [] => []
  | Call.send evts err :: t => (evts, err) :: sendCalls t
  | _ :: t => sendCalls t

/-- The world after `save` was applied to every event of a batch, in order, each call in the
world the one before left, whatever it returned. -/
def savedWorld {σ : Type} (save : Event → σ → Option String × σ) : Events → σ → σ
  | [], w => w
  | e :: es, w => savedWorld save es (save e w).2

/-- Every event of a batch with what `save` returns for it, applied in order from `w`. -/
def saveOutcomes {σ : Type} (save : Event → σ → Option String × σ) :
    Events → σ → List (Event × Option String)
  | [], _ => []
  | e :: es, w => (e, (save e w).1) :: saveOutcomes save es (save e w).2

/-- The world after a tick has dealt with the result `r` of a module, according to the
specification: unchanged for an error or an empty result; otherwise every event saved and
then, when there is a gateway client, the batch sent once. -/
def worldAfterResult {σ : Type} (svc : Service σ) (r : RunResult) (w : σ) : σ :=
  if r.err.isNone ∧ r.evts ≠ [] then
    match svc.gc with
    | some send => (send r.evts (savedWorld svc.store r.evts w)).2
    | none => savedWorld svc.store r.evts w
  else w

/-- The modules of a tick according to the specification: each module in registration
order is run in the world the one before left after its result was dealt with. Each entry is
the result of the module's `Run` and the world that `Run` left. -/
def tickRuns {σ : Type} (svc : Service σ) : Modules σ → σ → List (RunResult × σ)
  | [], _ => []
  | m :: ms, w =>
    ((m.Run w).1, (m.Run w).2) :: tickRuns svc ms (worldAfterResult svc (m.Run w).1 (m.Run w).2)

/-- The world after a tick according to the specification. -/
def tickWorld {σ : Type} (svc : Service σ) : Modules σ → σ → σ
  | [], w => w
  | m :: ms, w => tickWorld svc ms (worldAfterResult svc (m.Run w).1 (m.Run w).2)

/-- The `Save` calls of a tick according to the specification, with their outcomes: for
every module that returned no error, every event it returned, in order. -/
def saveCallsSpec {σ : Type} (svc : Service σ) (runs : List (RunResult × σ)) :
    List (Event × Option String) :=
  runs.flatMap (fun rw => if rw.1.err.isNone then saveOutcomes svc.store rw.1.evts rw.2 else [])

/-- The `SendEvents` calls of a tick according to the specification, with their outcomes:
for every module that returned a non-empty batch and no error, one call of `send` with the
whole batch, in the world left by the saves of that batch. -/
def sendCallsSpec {σ : Type} (svc : Service σ) (send : Events → σ → Option String × σ)
    (runs : List (RunResult × σ)) : List (Events × Option String) :=
  runs.flatMap (fun rw =>
    if rw.1.err.isNone ∧ rw.1.evts ≠ [] then
      [(rw.1.evts, (send rw.1.evts (savedWorld svc.store rw.1.evts rw.2)).1)]
    else [])

/-- An HTTP response as `fetchPolicyOnce` reads it: the status code and the outcome of
`io.ReadAll(resp.Body)`. -/
structure Response where
  StatusCode : Int
  Body : Except String String

/-- The anonymous struct `doc` that `fetchPolicyOnce` unmarshals the YAML body into. -/
structure PolicyDoc where
  Version : Int
  Policies : List GoMap

/-- The outcomes of the calls `fetchPolicyOnce` makes outside the service: the error (if any)
of `http.NewRequestWithContext`, `client.Do` (a transport error or a response),
`yaml.Unmarshal` of the body, `json.Marshal` of the canonical map, and the readings of
`time.Now()`, one per policy of the document. -/
structure FetchEnv where
  newRequest : String → Option String
  get : String → Except String Response
  yamlUnmarshal : String → Except String PolicyDoc
  jsonMarshal : Any → String
  clock : Nat → Time

/-- The policy that `fetchPolicyOnce` builds from entry `p` of the document, the `i`-th. -/
def canonicalPolicy (env : FetchEnv) (version : Int) (i : Nat) (p : GoMap) : Policy :=
  let id := (assertString p "id").1
  let name := (assertString p "name").1
  let rawMap := Any.object [("version", Any.int version), ("id", Any.string id),
    ("name", Any.string name), ("rules", (p.lookup "rules").getD Any.null)]
  { ID := id, Name := name, Raw := env.jsonMarshal rawMap, Updated := (env.clock i).UTC }

/-- The loop `for _, p := range doc.Policies` of `fetchPolicyOnce`, from entry number `i` on:
every entry is written with `Set`. -/
def storePolicies (env : FetchEnv) (version : Int) :
    Nat → List GoMap → policy.DBStore → policy.DBStore × List Call
  | _, [], pol => (pol, [])
  | i, p :: ps, pol =>
    let doc := canonicalPolicy env version i p
    let rest := storePolicies env version (i + 1) ps (pol.Set (some doc) (env.clock i))
    (rest.1, Call.set doc :: Call.info "policy stored" ["id", doc.ID] :: rest.2)

/-- `Service.fetchPolicyOnce` for the configured `policyURL` and the service's policy store
(`none` when `s.pol` is nil). Returns the policy store after the cycle and what the cycle did.
`Set` cannot fail in this model, so its error branch is not taken. -/
def fetchPolicyOnce (env : FetchEnv) (policyURL : String) (pol : Option policy.DBStore) :
    Option policy.DBStore × List Call :=
  match pol with
  | none => (none, [])
  | some store =>
    if policyURL = "" then (some store, [])
    else
      match env.newRequest policyURL with
      | some e => (some store, [Call.error "policy fetch request failed" ["err", e]])
      | none =>
        match env.get policyURL with
        | .error e => (some store, [Call.error "policy fetch failed" ["err", e]])
        | .ok resp =>
          if resp.StatusCode ≥ 400 then
            (some store,
              [Call.error "policy fetch returned status" ["status", toString resp.StatusCode]])
          else
            match resp.Body with
            | .error e => (some store, [Call.error "policy read failed" ["err", e]])
            | .ok b =>
              match env.yamlUnmarshal b with
              | .error e => (some store, [Call.error "policy yaml parse failed" ["err", e]])
              | .ok doc =>
                let r := storePolicies env doc.Version 0 doc.Policies store
                (some r.1, r.2)

/-- The `Set` calls of a trace, in call order. -/
def setCalls : List Call → List Policy
  | [] => []
  | Call.set p :: t => p :: setCalls t
  | _ :: t => setCalls t

/-- `s.store.Save` of a service whose event store is the SQLite store: the world is the
store, a failed save leaves it as it was. -/
def sqliteSave (e : Event) (w : events.sqliteStore) : Option String × events.sqliteStore :=
  match w.Save e with
  | .ok w1 => (none, w1)
  | .error m => (some m, w)

/-! ## Concrete inputs -/

namespace sample

/-- A parser stand-in that returns the zero time for every text. -/
def parseZero : String → Time := fun _ => ⟨0, 0, 0⟩

/-- 2024-01-01T10:00:00Z. -/
def tenOClock : Time := unixUTC 1704103200 0

/-- Two events as modules build them (id 0). -/
def ev1 : Event := ⟨0, tenOClock, "sysinfo", "one"⟩

/-- The second event. -/
def ev2 : Event := ⟨0, tenOClock, "process_list", "two"⟩

/-- The store after `ev1` and `ev2` were saved into a new database. -/
def twoSaved : events.sqliteStore :=
  ⟨[⟨1, "2024-01-01T10:00:00Z", "sysinfo", "one"⟩,
    ⟨2, "2024-01-01T10:00:00Z", "process_list", "two"⟩], 2⟩

/-- A policy stamped 2024-01-01T10:00:00.1Z. -/
def polA : Policy := ⟨"a", "first", "ra", unixUTC 1704103200 100000000⟩

/-- A policy stamped 2024-01-01T10:00:00.2Z, a tenth of a second after `polA`. -/
def polB : Policy := ⟨"b", "second", "rb", unixUTC 1704103200 200000000⟩

/-- A policy stamped 2024-01-01T06:00:00-05:00, which is 11:00:00Z, an hour after `polA`. -/
def polWest : Policy := ⟨"w", "west", "rw", ⟨1704106800 + unixToInternal, 0, -18000⟩⟩

/-- A policy stamped 2024-01-01T10:00:01Z, a second after `polA`. -/
def polC : Policy := ⟨"", "third", "rc", unixUTC 1704103201 0⟩

/-- Policy `a` again, stamped 1970-01-01T00:00:00Z. -/
def polOld : Policy := ⟨"a", "older", "ro", unixUTC 0 0⟩

/-- The two rules of the default policy and one rule of another type, as decoded. -/
def rules : List GoMap :=
  [[("id", Any.string "p1"), ("type", Any.string "block_process"),
    ("match", Any.string "cmd.exe"), ("action", Any.string "alert")],
   [("id", Any.string "p2"), ("type", Any.string "block_process"),
    ("match", Any.string "notepad.exe"), ("action", Any.string "alert")],
   [("id", Any.string "p3"), ("type", Any.string "audit"), ("match", Any.string "cmd.exe")]]

/-- A decoder stand-in that returns the rules above for every non-empty text. -/
def unmarshalRules : String → Except String RuleDoc :=
  fun raw => if raw = "" then .error "unexpected end of JSON input" else .ok ⟨1, rules⟩

/-- An encoder stand-in for violation payloads: the four values, separated by bars. -/
def marshalBars : Any → String
  | Any.object [(_, Any.string pid), (_, Any.string rid),
      (_, Any.object [(_, Any.string name), (_, Any.int n)])] =>
    pid ++ "|" ++ rid ++ "|" ++ name ++ "|" ++ toString n
  | _ => ""

/-- Three processes, two of them named `cmd.exe`. -/
def procs : List Process := [⟨100, "cmd.exe"⟩, ⟨101, "explorer.exe"⟩, ⟨102, "cmd.exe"⟩]

/-- The policy store right after `service.New` seeded the default policy at ten. -/
def seeded : policy.DBStore := seedDefault parseZero policy.emptyStore tenOClock

/-- The policy `Get` returns from the seeded store. -/
def seededPolicy : Policy := ⟨"active", "default", defaultPolicy.Raw, ⟨0, 0, 0⟩⟩

/-- A rule of type `block_process` with a number as `id` and without `match`, as decoded from
JSON (numbers decode to floats). -/
def bareRule : GoMap := [("id", Any.float "7"), ("type", Any.string "block_process")]

/-- The JSON text of the policy document with `bareRule`. -/
def bareRaw : String :=
  "\x7b\"version\":1,\"rules\":[\x7b\"id\":7,\"type\":\"block_process\"\x7d]\x7d"

/-- A decoder stand-in that decodes `bareRaw`. -/
def unmarshalBare : String → Except String RuleDoc :=
  fun raw => if raw = bareRaw then .ok ⟨1, [bareRule]⟩ else .error "invalid character"

/-- The policy store after the policy with `bareRule` was set at ten. -/
def bareStore : policy.DBStore :=
  policy.emptyStore.Set (some ⟨"active", "bare", bareRaw, tenOClock⟩) tenOClock

/-- Two processes, the name of the first cannot be read. -/
def unnamed : List Process := [⟨100, ""⟩, ⟨101, "explorer.exe"⟩]

/-- A module that fails. -/
def failing : Module events.sqliteStore := ⟨"broken", fun w => (⟨[], some "boom"⟩, w)⟩

/-- A module that returns `ev1` and `ev2`. -/
def twoEvents : Module events.sqliteStore := ⟨"two", fun w => (⟨[ev1, ev2], none⟩, w)⟩

/-- A module that returns nothing. -/
def silent : Module events.sqliteStore := ⟨"silent", fun w => (⟨[], none⟩, w)⟩

/-- A gateway that refuses every batch. -/
def refusing (_ : Events) (w : events.sqliteStore) : Option String × events.sqliteStore :=
  (some "connection refused", w)

/-- A service over the SQLite event store with the three modules above and the refusing
gateway. -/
def svc : Service events.sqliteStore :=
  { mods := (((NewRegistry _).Register failing).Register twoEvents).Register silent
    store := sqliteSave
    gc := some refusing }

/-- A network on which the batch marshals to the JSON array of `ev1`, every request can be
built and every response has status 304 (Not Modified). -/
def net304 : Net :=
  { marshal := fun _ => .ok
      "[\x7b\"id\":0,\"timestamp\":\"2024-01-01T10:00:00Z\",\"type\":\"sysinfo\",\"payload\":\"one\"\x7d]"
    newRequest := fun _ => none
    roundTrip := fun _ _ => .ok 304 }

/-- The same network with status 503. -/
def net503 : Net := { net304 with roundTrip := fun _ _ => .ok 503 }

/-- The document with one policy `p1` without rules, as decoded from YAML. -/
def fetchedDoc : PolicyDoc :=
  ⟨1, [[("id", Any.string "p1"), ("name", Any.string "n1"), ("rules", Any.array [])]]⟩

/-- The YAML text of `fetchedDoc`. -/
def fetchedBody : String := "version: 1\npolicies:\n  - id: p1\n    name: n1\n    rules: []\n"

/-- The canonical JSON of the policy of `fetchedDoc`. -/
def fetchedRaw : String :=
  "\x7b\"id\":\"p1\",\"name\":\"n1\",\"rules\":[],\"version\":1\x7d"

/-- A fetch environment in which the policy source answers with status `status` and the body
`fetchedBody`, which decodes to `fetchedDoc`; the clock shows ten. -/
def fetchEnv (status : Int) : FetchEnv :=
  { newRequest := fun _ => none
    get := fun _ => .ok ⟨status, .ok fetchedBody⟩
    yamlUnmarshal := fun b => if b = fetchedBody then .ok fetchedDoc else .error "yaml"
    jsonMarshal := fun _ => fetchedRaw
    clock := fun _ => tenOClock }

/-- The document with the two policies `p1` and `p2`, as decoded from YAML. -/
def fetchedTwo : PolicyDoc :=
  ⟨1, [[("id", Any.string "p1"), ("name", Any.string "n1")],
       [("id", Any.string "p2"), ("name", Any.string "n2")]]⟩

/-- The YAML text of `fetchedTwo`. -/
def fetchedTwoBody : String :=
  "version: 1\npolicies:\n  - id: p1\n    name: n1\n  - id: p2\n    name: n2\n"

/-- An encoder stand-in for canonical policies that keeps the id only. -/
def marshalID : Any → String
  | Any.object [_, (_, Any.string id), _, _] => "\x7b\"id\":\"" ++ id ++ "\"\x7d"
  | _ => ""

/-- A fetch environment in which the policy source answers with status 200 and
`fetchedTwoBody`, and the clock advances a tenth of a second from one policy to the next. -/
def fetchTwoEnv : FetchEnv :=
  { newRequest := fun _ => none
    get := fun _ => .ok ⟨200, .ok fetchedTwoBody⟩
    yamlUnmarshal := fun b => if b = fetchedTwoBody then .ok fetchedTwo else .error "yaml"
    jsonMarshal := marshalID
    clock := fun i => unixUTC 1704103200 (100000000 * (i + 1)) }

end sample

/-! ## internal/modules: the host-facts and process-list collectors -/

/-- What `host.Info()` reports, as far as the collector reads it (zero values where the
host gives nothing). -/
structure HostInfo where
  Hostname : String
  Platform : String
  PlatformVersion : String
  Uptime : Nat
deriving DecidableEq, Repr

/-- What the built-in modules read from the host in one run: `host.Info()`, `cpu.Counts(true)`,
the total of `mem.VirtualMemory()`, the outcome of `proc.Processes()`, the first result of
`Exe()` of a process, and `time.Now()`. -/
structure HostEnv where
  info : HostInfo
  cores : Int
  totalMem : Nat
  processes : Except String (List Process)
  exe : Process → String
  now : Time

/-- `sysinfoModule.Run`: always one event of type `sysinfo`, its `ID` left at zero. -/
def sysinfoModule.Run (marshal : Any → String) (env : HostEnv) : RunResult :=
  let data := Any.object [("host", Any.string env.info.Hostname),
    ("os", Any.string (env.info.Platform ++ " " ++ env.info.PlatformVersion)),
    ("uptime", Any.int env.info.Uptime), ("cpu_cores", Any.int env.cores),
    ("total_mem", Any.int env.totalMem)]
  ⟨[{ ID := 0, Timestamp := env.now.UTC, Typ := "sysinfo", Payload := marshal data }], none⟩

/-- The loop of `processModule.Run`: one map per process, stopping once the list has 200
entries. -/
def collectProcesses (exe : Process → String) : List Process → List Any → List Any
  | [], list => list
  | p :: ps, list =>
    let list1 := list ++ [Any.object [("name", Any.string p.Name), ("pid", Any.int p.Pid),
      ("exe", Any.string (exe p))]]
    if list1.length ≥ 200 then list1 else collectProcesses exe ps list1

/-- `processModule.Run`: the error of `proc.Processes()`, or one event of type `process_list`,
its `ID` left at zero. -/
def processModule.Run (marshal : Any → String) (env : HostEnv) : RunResult :=
  match env.processes with
  | .error e => ⟨[], some e⟩
  | .ok procs =>
    ⟨[{ ID := 0, Timestamp := env.now.UTC, Typ := "process_list",
        Payload := marshal (Any.array (collectProcesses env.exe procs [])) }], none⟩

/-- `modules.NewSysInfoModule`, over a world from which the host is read. -/
def NewSysInfoModule {σ : Type} (marshal : Any → String) (host : σ → HostEnv) : Module σ :=
  ⟨"sysinfo", fun w => (sysinfoModule.Run marshal (host w), w)⟩

/-- `modules.NewProcessModule`. -/
def NewProcessModule {σ : Type} (marshal : Any → String) (host : σ → HostEnv) : Module σ :=
  ⟨"process", fun w => (processModule.Run marshal (host w), w)⟩

/-- `modules.NewPolicyEnforcer` for the policy store `ps` of the world. -/
def NewPolicyEnforcer {σ : Type} (parse : String → Time)
    (unmarshal : String → Except String RuleDoc) (marshal : Any → String) (host : σ → HostEnv)
    (ps : σ → policy.DBStore) : Module σ :=
  ⟨"policy_enforcer", fun w =>
    (policyEnforcer.Run parse unmarshal marshal (ps w) (host w).processes (host w).now, w)⟩

/-- The registry that `service.New` builds: the host-facts and process-list collectors and,
when the policy store could be opened (`pol` is not `none`), the policy enforcer. -/
def builtinRegistry {σ : Type} (parse : String → Time)
    (unmarshal : String → Except String RuleDoc) (marshal : Any → String) (host : σ → HostEnv)
    (pol : Option (σ → policy.DBStore)) : Registry σ :=
  let r := ((NewRegistry σ).Register (NewSysInfoModule marshal host)).Register
    (NewProcessModule marshal host)
  match pol with
  | some ps => r.Register (NewPolicyEnforcer parse unmarshal marshal host ps)
  | none => r

/-- The batches handed to `SendEvents`, in call order. -/
def sentBatches : List Call → List Events
  | [] => []
  | Call.send evts _ :: t => evts :: sentBatches t
  | _ :: t => sentBatches t

/-- One pass of the `select` in the loop of `Run`, at the moment it proceeds: whether a
value waits on `ticker.C`, whether `s.ctx.Done()` is closed, and the case the runtime takes
when both are ready (Go picks one of the ready cases at random). -/
structure Select where
  tickReady : Bool
  cancelled : Bool
  pickTick : Bool
deriving DecidableEq, Repr

/-- The two cases of the `select`. -/
inductive Case where
  | tick
  | done
deriving DecidableEq, Repr

/-- The case a pass of the `select` takes: a ready one, `none` while neither is ready (the
loop keeps waiting). -/
def Select.chosen (p : Select) : Option Case :=
  if p.tickReady && p.cancelled then (if p.pickTick then some Case.tick else some Case.done)
  else if p.tickReady then some Case.tick
  else if p.cancelled then some Case.done
  else none

/-- What `Run` does, in order: its own log lines and the ticks it starts, each with the
state of the cancellation signal at the moment the tick starts and with what the tick did. -/
inductive Step where
  | info (msg : String)
  | error (msg : String) (kv : List String)
  | tick (cancelled : Bool) (calls : List Call)
deriving DecidableEq, Repr

/-- The result of `Run` on a finite schedule: the world, the steps, and whether `Run` has
returned (it has not when the schedule ends with the loop still waiting). -/
structure RunState (σ : Type) where
  world : σ
  steps : List Step
  returned : Bool

/-- The loop `for { select { ... } }` of `Run` over the passes of the `select`: the ticker
case runs a tick and loops, the cancellation case logs and returns. -/
def runLoop {σ : Type} (svc : Service σ) : List Select → σ → RunState σ
  | [], w => ⟨w, [], false⟩
  | p :: ps, w =>
    match p.chosen with
    | none => ⟨w, [], false⟩
    | some Case.done => ⟨w, [Step.info "service stopping"], true⟩
    | some Case.tick =>
      let r := svc.runOnce w
      let rest := runLoop svc ps r.1
      ⟨rest.world, Step.tick p.cancelled r.2 :: rest.steps, rest.returned⟩

/-- `Service.Run`, the policy fetcher goroutine apart. `openStore` is the outcome of
`events.NewSqliteStore` (the `Save` of the opened store), `send` the `SendEvents` of the client
that `gateway.NewHTTPClient` builds, `cancelledAtStart` the state of the cancellation signal
when the immediate first tick starts, `passes` the passes of the `select` that follow. -/
def Service.Run {σ : Type} (svc : Service σ)
    (openStore : Except String (Event → σ → Option String × σ))
    (send : Events → σ → Option String × σ) (cancelledAtStart : Bool) (passes : List Select)
    (w : σ) : RunState σ :=
  match openStore with
  | .error e =>
    ⟨w, [Step.info "service starting", Step.error "failed to open event store" ["err", e]], true⟩
  | .ok save =>
    let svc1 : Service σ := { mods := svc.mods, store := save, gc := some send }
    let first := svc1.runOnce w
    let rest := runLoop svc1 passes first.1
    ⟨rest.world,
      Step.info "service starting" :: Step.tick cancelledAtStart first.2 :: rest.steps,
      rest.returned⟩

/-- The state of the cancellation signal at the start of each tick, in order. -/
def tickStarts : List Step → List Bool
  | [] => []
  | Step.tick c _ :: t => c :: tickStarts t
  | _ :: t => tickStarts t

/-- The passes of the `select` that take the ticker case before the first pass that does
not. -/
def tickPasses (passes : List Select) : List Select :=
  passes.takeWhile (fun p => p.chosen == some Case.tick)

/-- The pass, if any, at which the loop stops taking ticks. -/
def stopPass (passes : List Select) : Option Select :=
  (passes.dropWhile (fun p => p.chosen == some Case.tick)).head?

namespace sample

/-- A host with two processes. -/
def host : HostEnv :=
  { info := ⟨"box", "linux", "6.1", 3600⟩
    cores := 4
    totalMem := 1024
    processes := .ok [⟨100, "cmd.exe"⟩, ⟨101, "explorer.exe"⟩]
    exe := fun p => "/bin/" ++ p.Name
    now := tenOClock }

/-- An encoder stand-in that returns the same text for every value. -/
def marshalFlat : Any → String := fun _ => "json"

/-- The service that `service.New` builds over the SQLite event store, with the seeded
policy store and the refusing gateway. -/
def builtinSvc : Service events.sqliteStore :=
  { mods := builtinRegistry parseZero unmarshalRules marshalFlat (fun _ => host)
      (some (fun _ => seeded))
    store := sqliteSave
    gc := some refusing }

/-- A pass of the `select` at which only the cancellation signal is ready. -/
def onlyCancelled : Select := ⟨false, true, false⟩

/-- A pass at which the ticker and the cancellation signal are both ready and the runtime
takes the ticker. -/
def bothTakeTick : Select := ⟨true, true, true⟩

/-- A pass at which only the ticker is ready. -/
def onlyTick : Select := ⟨true, false, false⟩

end sample

/-! # Theorems -/

open sample

namespace events

/-! ## Event store -/

theorem le_maxRowid (rows : List Row) : ∀ r ∈ rows, r.id ≤ maxRowid rows := by
  induction rows with
  | nil => intro r hr; cases hr
  | cons a l ih =>
    intro r hr
    have hm : maxRowid (a :: l) = max a.id (maxRowid l) := rfl
    rw [hm]
    rcases List.mem_cons.mp hr with h | h
    · subst h; exact le_max_left _ _
    · exact le_trans (ih r h) (le_max_right _ _)

theorem orderedInsert_last (a : Row) (l : List Row) (h : ∀ b ∈ l, a.id < b.id) :
    List.orderedInsert (fun a b : Row => b.id ≤ a.id) a l = l ++ [a] := by
  induction l with
  | nil => rfl
  | cons b l ih =>
    have hb : ¬ b.id ≤ a.id := not_le.mpr (h b (List.mem_cons_self _ _))
    simp only [List.orderedInsert, hb, if_false, List.cons_append]
    rw [ih (fun c hc => h c (List.mem_cons_of_mem _ hc))]

theorem orderByIdDesc_of_ascending (rows : List Row) (h : Ascending rows) :
    orderByIdDesc rows = rows.reverse := by
  induction rows with
  | nil => rfl
  | cons a l ih =>
    have h2 : (∀ b ∈ l, a.id < b.id) ∧ Ascending l := by
      unfold Ascending at h ⊢
      simpa [List.pairwise_cons] using h
    have e : orderByIdDesc (a :: l) =
        List.orderedInsert (fun a b : Row => b.id ≤ a.id) a (orderByIdDesc l) := rfl
    rw [e, ih h2.2, orderedInsert_last a l.reverse (fun b hb => h2.1 b (List.mem_reverse.mp hb))]
    simp

theorem Save_spec (s s1 : sqliteStore) (e : Event) (hasc : Ascending s.rows)
    (h : s.Save e = .ok s1) :
    s1.rows = s.rows ++ [⟨s1.seq, formatRFC3339 e.Timestamp, e.Typ, e.Payload⟩] ∧
      Ascending s1.rows := by
  unfold sqliteStore.Save at h
  simp only at h
  split at h
  · cases h
  · injection h with h
    subst h
    refine ⟨rfl, ?_⟩
    unfold Ascending at hasc ⊢
    simp only [List.map_append, List.map_cons, List.map_nil]
    rw [List.pairwise_append]
    refine ⟨hasc, List.pairwise_singleton _ _, ?_⟩
    intro x hx y hy
    obtain ⟨r, hr, rfl⟩ := List.mem_map.mp hx
    rw [List.mem_singleton] at hy
    subst hy
    have := le_maxRowid s.rows r hr
    have := le_max_right s.seq (maxRowid s.rows)
    omega

/-- What a run of successful saves leaves in the table: the old rows, then one row per event
in order, with ascending rowids, the last of them recorded in `seq`. -/
theorem saveAll_spec : ∀ (evs : Events) (s s1 : sqliteStore), Ascending s.rows →
    saveAll s evs = .ok s1 →
    ∃ added : List Row, s1.rows = s.rows ++ added ∧ Ascending s1.rows ∧
      added.map (fun r => (r.timestamp, r.type, r.payload))
        = evs.map (fun e => (formatRFC3339 e.Timestamp, e.Typ, e.Payload)) ∧
      (evs ≠ [] → ∃ r, added.getLast? = some r ∧ r.id = s1.seq) := by
  intro evs
  induction evs with
  | nil =>
    intro s s1 hasc h
    simp only [saveAll] at h
    injection h with h
    subst h
    exact ⟨[], by simp, hasc, rfl, fun h => absurd rfl h⟩
  | cons e es ih =>
    intro s s1 hasc h
    simp only [saveAll] at h
    cases hsave : s.Save e with
    | error m => rw [hsave] at h; cases h
    | ok s2 =>
      rw [hsave] at h
      obtain ⟨hrows, hasc2⟩ := Save_spec s s2 e hasc hsave
      obtain ⟨added, hadd, hasc1, hmap, hlast⟩ := ih s2 s1 hasc2 h
      refine ⟨⟨s2.seq, formatRFC3339 e.Timestamp, e.Typ, e.Payload⟩ :: added, ?_, hasc1, ?_, ?_⟩
      · rw [hadd, hrows]; simp
      · simp [hmap]
      · intro _
        by_cases hes : es = []
        · subst hes
          simp only [saveAll] at h
          injection h with h
          subst h
          have : added = [] := by simpa using hmap
          subst this
          exact ⟨_, rfl, rfl⟩
        · obtain ⟨r, hr, hid⟩ := hlast hes
          refine ⟨r, ?_, hid⟩
          cases added with
          | nil => simp at hr
          | cons a t => rw [List.getLast?_cons_cons]; exact hr

/-- C1. After a run of successful `Save` calls on a store with an empty table, `List(n)` for
`n ≥ 0` returns exactly `min(n, number saved)` events, with strictly descending ids, and its
first event, when there is one, is the event saved last: it has the id handed out last and the
type, payload and (formatted, re-parsed) timestamp of the last saved event. -/
theorem list_after_saves (parse : String → Time) (s0 s : sqliteStore) (evs : Events) (n : Int)
    (h0 : s0.rows = []) (hs : saveAll s0 evs = .ok s) (hn : 0 ≤ n) :
    (s.List parse n).length = min n.toNat evs.length ∧
    ((s.List parse n).map (·.ID)).Pairwise (· > ·) ∧
    (∀ e, (s.List parse n).head? = some e →
      ∃ l, evs.getLast? = some l ∧
        e = ⟨s.seq, parse (formatRFC3339 l.Timestamp), l.Typ, l.Payload⟩) := by
  have hasc0 : Ascending s0.rows := by rw [h0]; exact List.Pairwise.nil
  obtain ⟨added, hrows, hasc, hmap, hlast⟩ := saveAll_spec evs s0 s hasc0 hs
  rw [h0, List.nil_append] at hrows
  have hlen : s.rows.length = evs.length := by
    have := congrArg List.length hmap
    simpa [hrows] using this
  have hlist : s.List parse n = (s.rows.reverse.take n.toNat).map
      (fun r => { ID := r.id, Timestamp := parse r.timestamp, Typ := r.type,
                  Payload := r.payload }) := by
    unfold sqliteStore.List sqlLimit
    rw [orderByIdDesc_of_ascending s.rows hasc, if_neg (not_lt.mpr hn)]
  refine ⟨?_, ?_, ?_⟩
  · rw [hlist]; simp [hlen]
  · rw [hlist, List.map_map]
    have hdesc : (s.rows.reverse.map (·.id)).Pairwise (· > ·) := by
      rw [List.map_reverse, List.pairwise_reverse]
      exact hasc
    have hsub : ((s.rows.reverse.take n.toNat).map (·.id)).Sublist (s.rows.reverse.map (·.id)) :=
      (List.take_sublist _ _).map _
    exact hdesc.sublist hsub
  · intro e he
    rw [hlist, List.head?_map] at he
    cases htk : (s.rows.reverse.take n.toNat).head? with
    | none => rw [htk] at he; cases he
    | some r =>
      rw [htk] at he
      have hr : s.rows.getLast? = some r := by
        cases hk : n.toNat with
        | zero => rw [hk] at htk; simp at htk
        | succ k =>
          rw [hk] at htk
          cases hrev : s.rows.reverse with
          | nil => rw [hrev] at htk; simp at htk
          | cons a t =>
            rw [hrev] at htk
            simp only [List.take_succ_cons, List.head?_cons, Option.some.injEq] at htk
            subst htk
            rw [← List.head?_reverse, hrev]; rfl
      have hne : evs ≠ [] := by
        intro h
        rw [h] at hlen
        rw [List.length_eq_zero.mp hlen] at hr
        cases hr
      obtain ⟨r1, hr1, hid⟩ := hlast hne
      rw [hrows, hr1] at hr
      injection hr with hr
      subst hr
      have hl := congrArg List.getLast? hmap
      rw [List.getLast?_map, List.getLast?_map, hr1] at hl
      cases hev : evs.getLast? with
      | none => rw [hev] at hl; cases hl
      | some l =>
        rw [hev] at hl
        simp only [Option.map_some', Option.some.injEq, Prod.mk.injEq] at hl
        refine ⟨l, rfl, ?_⟩
        simp only [Option.map_some', Option.some.injEq] at he
        rw [← he, hid, hl.1, hl.2.1, hl.2.2]

end events

namespace policy

/-! ## Policy store -/

theorem mem_upsert_self (rows : List Row) (r : Row) : r ∈ upsert rows r := by
  unfold upsert
  split
  · rename_i h
    obtain ⟨x, hx, hid⟩ := List.any_eq_true.mp h
    refine List.mem_map.mpr ⟨x, hx, ?_⟩
    rw [if_pos (by simpa using hid)]
  · simp

theorem mem_upsert (rows : List Row) (r x : Row) (h : x ∈ upsert rows r) : x = r ∨ x ∈ rows := by
  unfold upsert at h
  split at h
  · obtain ⟨y, hy, hxy⟩ := List.mem_map.mp h
    by_cases hid : y.id = r.id
    · rw [if_pos hid] at hxy; exact Or.inl hxy.symm
    · rw [if_neg hid] at hxy; exact Or.inr (hxy ▸ hy)
  · rcases List.mem_append.mp h with h | h
    · exact Or.inr h
    · exact Or.inl (List.mem_singleton.mp h)

theorem find_upsert (rows : List Row) (r : Row) :
    (upsert rows r).find? (fun x => x.id == r.id) = some r := by
  unfold upsert
  split
  · rename_i h
    have hex : ∃ x ∈ rows, x.id = r.id := by
      obtain ⟨x, hx, hid⟩ := List.any_eq_true.mp h
      exact ⟨x, hx, by simpa using hid⟩
    clear h
    induction rows with
    | nil => obtain ⟨x, hx, _⟩ := hex; cases hx
    | cons a l ih =>
      by_cases ha : a.id = r.id
      · simp [List.find?, ha]
      · have hex2 : ∃ x ∈ l, x.id = r.id := by
          obtain ⟨x, hx, hid⟩ := hex
          rcases List.mem_cons.mp hx with h | h
          · subst h; exact absurd hid ha
          · exact ⟨x, h, hid⟩
        simp only [List.map_cons, if_neg ha, List.find?_cons]
        have : (a.id == r.id) = false := by simpa using ha
        rw [this]
        exact ih hex2
  · rename_i h
    have hnone : rows.find? (fun x => x.id == r.id) = none := by
      rw [List.find?_eq_none]
      intro x hx hid
      exact h (List.any_eq_true.mpr ⟨x, hx, hid⟩)
    rw [List.find?_append, hnone]
    simp

/-- `Get` returns none exactly when the table has no row or the row that sorts first has a
NULL name. -/
theorem Get_none_iff (parse : String → Time) (s : DBStore) :
    s.Get parse = none ↔
      s.rows = [] ∨ ∃ r, (orderByUpdatedDesc s.rows).head? = some r ∧ r.name = none := by
  have hlen : (orderByUpdatedDesc s.rows).length = s.rows.length :=
    List.length_insertionSort _ _
  unfold DBStore.Get sqlLimit
  cases hs : orderByUpdatedDesc s.rows with
  | nil =>
    rw [hs] at hlen
    simp [List.length_eq_zero.mp hlen.symm]
  | cons a t =>
    rw [hs] at hlen
    have : s.rows ≠ [] := by
      intro h; rw [h] at hlen; cases hlen
    cases hn : a.name <;> simp [this, hn]

/-- A row whose `updated` text is strictly above that of every other row is the one `Get`
returns. -/
theorem Get_of_strict_max (parse : String → Time) (s : DBStore) (m : Row) (name : String)
    (hm : m ∈ s.rows) (hname : m.name = some name)
    (hmax : ∀ r ∈ s.rows, r = m ∨ textKey r.updated < textKey m.updated) :
    s.Get parse = some ⟨m.id, name, m.raw, parse m.updated⟩ := by
  have hsorted : (orderByUpdatedDesc s.rows).Sorted updatedDesc :=
    List.sorted_insertionSort _ _
  have hperm : (orderByUpdatedDesc s.rows).Perm s.rows := List.perm_insertionSort _ _
  unfold DBStore.Get sqlLimit
  cases hs : orderByUpdatedDesc s.rows with
  | nil =>
    rw [hs] at hperm
    have := hperm.symm.eq_nil
    rw [this] at hm; cases hm
  | cons a t =>
    rw [hs] at hperm hsorted
    have ha : a ∈ s.rows := hperm.subset (List.mem_cons_self _ _)
    have hm2 : m ∈ a :: t := hperm.symm.subset hm
    have ham : a = m := by
      rcases hmax a ha with h | h
      · exact h
      · rcases List.mem_cons.mp hm2 with h2 | h2
        · exact h2.symm
        · have hle : textKey m.updated ≤ textKey a.updated :=
            List.rel_of_sorted_cons hsorted m h2
          exact absurd h (not_lt.mpr hle)
    subst ham
    simp [hname]

theorem setAll_cons (s : DBStore) (c : Policy × Time) (cs : List (Policy × Time)) :
    setAll s (c :: cs) = setAll (s.Set (some c.1) c.2) cs := rfl

/-- After a run of `Set` calls with strictly increasing stored texts, all above the texts
already stored, the row of the last call is in the table and strictly above every other row. -/
theorem setAll_last_is_max : ∀ (calls : List (Policy × Time)) (s : DBStore)
    (last : Policy × Time), calls.getLast? = some last →
    (calls.map (fun c => textKey (storedText c))).Pairwise (· < ·) →
    (∀ r ∈ s.rows, ∀ c ∈ calls, textKey r.updated < textKey (storedText c)) →
    writtenRow last ∈ (setAll s calls).rows ∧
      ∀ r ∈ (setAll s calls).rows,
        r = writtenRow last ∨ textKey r.updated < textKey (writtenRow last).updated := by
  intro calls
  induction calls with
  | nil => intro s last h; cases h
  | cons c cs ih =>
    intro s last hlast hinc h0
    rw [setAll_cons]
    have hset : (s.Set (some c.1) c.2).rows = upsert s.rows (writtenRow c) := rfl
    cases cs with
    | nil =>
      simp only [List.getLast?_singleton, Option.some.injEq] at hlast
      subst hlast
      have e : setAll (s.Set (some c.1) c.2) [] = s.Set (some c.1) c.2 := rfl
      rw [e, hset]
      refine ⟨mem_upsert_self _ _, fun r hr => ?_⟩
      rcases mem_upsert _ _ _ hr with h | h
      · exact Or.inl h
      · exact Or.inr (h0 r h c (List.mem_singleton.mpr rfl))
    | cons d ds =>
      rw [List.getLast?_cons_cons] at hlast
      rw [List.map_cons, List.pairwise_cons] at hinc
      refine ih (s.Set (some c.1) c.2) last hlast hinc.2 ?_
      intro r hr e he
      rw [hset] at hr
      rcases mem_upsert _ _ _ hr with h | h
      · subst h
        exact hinc.1 _ (List.mem_map.mpr ⟨e, he, rfl⟩)
      · exact h0 r h e (List.mem_cons_of_mem _ he)

end policy

/-! ## Policy enforcer -/

theorem assertString_type (r : GoMap) :
    ((assertString r "type").2 && (assertString r "type").1 == "block_process")
      = isBlockProcess r := by
  unfold assertString isBlockProcess
  cases h : r.lookup "type" with
  | none => rfl
  | some v => cases v <;> simp

theorem assertString_fst (r : GoMap) (key : String) :
    (assertString r key).1 = ruleField r key := by
  unfold assertString ruleField
  cases h : r.lookup key with
  | none => rfl
  | some v => cases v <;> rfl

theorem matchProcesses_eq (marshal : Any → String) (policyID : String) (now : Time)
    (r : GoMap) : ∀ (procs : List Process) (evts : Events),
    matchProcesses marshal policyID (ruleField r "id") (ruleField r "match") now procs evts
      = evts ++ (procs.filter (fun p => p.Name = ruleField r "match")).map
          (violationEvent marshal policyID now r) := by
  intro procs
  induction procs with
  | nil => intro evts; simp [matchProcesses]
  | cons p ps ih =>
    intro evts
    have step : matchProcesses marshal policyID (ruleField r "id") (ruleField r "match") now
        (p :: ps) evts
        = matchProcesses marshal policyID (ruleField r "id") (ruleField r "match") now ps
            (if p.Name = ruleField r "match" then
              evts ++ [violationEvent marshal policyID now r p] else evts) := rfl
    rw [step, ih]
    by_cases hp : p.Name = ruleField r "match"
    · simp [hp]
    · simp [hp]

theorem enforceRules_from (marshal : Any → String) (policyID : String) (now : Time)
    (procs : List Process) : ∀ (rules : List GoMap) (acc : Events),
    rules.foldl (fun evts r =>
      if (assertString r "type").2 && (assertString r "type").1 == "block_process" then
        matchProcesses marshal policyID (assertString r "id").1 (assertString r "match").1 now
          procs evts
      else evts) acc
      = acc ++ violationsSpec marshal policyID now procs rules := by
  intro rules
  induction rules with
  | nil => intro acc; simp [violationsSpec]
  | cons r rs ih =>
    intro acc
    rw [List.foldl_cons, ih, assertString_type, assertString_fst, assertString_fst]
    by_cases hb : isBlockProcess r = true
    · rw [if_pos hb, matchProcesses_eq]
      simp [violationsSpec, List.filter_cons, hb]
    · rw [if_neg hb]
      simp [violationsSpec, List.filter_cons, hb]

theorem enforceRules_eq_spec (marshal : Any → String) (policyID : String) (now : Time)
    (procs : List Process) (rules : List GoMap) :
    enforceRules marshal policyID now procs rules
      = violationsSpec marshal policyID now procs rules := by
  unfold enforceRules
  rw [enforceRules_from]
  simp

theorem isBlockProcess_eq (r : GoMap) :
    isBlockProcess r = decide (ruleString r "type" = some "block_process") := by
  unfold isBlockProcess ruleString
  cases h : r.lookup "type" with
  | none => rfl
  | some v =>
    cases v with
    | string t => by_cases ht : t = "block_process" <;> simp [ht]
    | _ => simp

/-- On rules whose `block_process` entries carry a string `match` and a string `id`, the
amended reading and the strict reading of the claim give the same events. -/
theorem violationsSpec_eq_strict (marshal : Any → String) (policyID : String) (now : Time)
    (procs : List Process) : ∀ (rules : List GoMap),
    (∀ r ∈ rules, isBlockProcess r = true →
      (∃ m, r.lookup "match" = some (Any.string m)) ∧
        (∃ i, r.lookup "id" = some (Any.string i))) →
    violationsSpec marshal policyID now procs rules
      = violationsStrict marshal policyID now procs rules := by
  intro rules
  induction rules with
  | nil => intro _; rfl
  | cons r rs ih =>
    intro hwf
    have ih1 := ih (fun x hx => hwf x (List.mem_cons_of_mem _ hx))
    unfold violationsSpec violationsStrict at ih1 ⊢
    by_cases hb : isBlockProcess r = true
    · have hb2 : ruleString r "type" = some "block_process" := by
        have := isBlockProcess_eq r
        rw [hb] at this
        exact of_decide_eq_true this.symm
      obtain ⟨⟨m, hm⟩, ⟨i, hi⟩⟩ := hwf r (List.mem_cons_self _ _) hb
      rw [List.filter_cons_of_pos hb, List.filter_cons_of_pos (by simpa using hb2),
        List.flatMap_cons, List.flatMap_cons, ih1]
      congr 1
      have hf : ruleField r "match" = m := by simp [ruleField, hm]
      have hs : ruleString r "match" = some m := by simp [ruleString, hm]
      have hid : ruleField r "id" = i := by simp [ruleField, hi]
      have hfilter : procs.filter (fun p => decide (p.Name = ruleField r "match"))
          = procs.filter (fun p => decide (ruleString r "match" = some p.Name)) := by
        apply List.filter_congr
        intro p _
        rw [hf, hs]
        by_cases hp : p.Name = m
        · simp [hp]
        · have : ¬ m = p.Name := fun h => hp h.symm
          simp [hp, this]
      rw [hfilter]
      apply List.map_congr_left
      intro p _
      simp [violationEvent, hid, hi]
    · have hb2 : ¬ ruleString r "type" = some "block_process" := by
        intro h
        have := isBlockProcess_eq r
        rw [h] at this
        exact hb (by simpa using this)
      rw [List.filter_cons_of_neg hb, List.filter_cons_of_neg (by simpa using hb2), ih1]

/-- C3 fails for a rule without a string `match`: the policy holds one rule of type
`block_process` with the number 7 as `id` and no `match`, one process has a name that cannot
be read (the empty string), and `Run` returns a violation for that process, with the empty
string as rule id. No process name is equal to a `match` of the rule, which has none, so the
claim read strictly allows no event. -/
theorem enforcer_fires_without_match :
    bareRule.lookup "match" = none ∧ bareRule.lookup "id" = some (Any.float "7") ∧
    bareStore.Get parseZero = some ⟨"active", "bare", bareRaw, parseZero "2024-01-01T10:00:00Z"⟩ ∧
    unmarshalBare bareRaw = .ok ⟨1, [bareRule]⟩ ∧
    policyEnforcer.Run parseZero unmarshalBare marshalBars bareStore (.ok unnamed) tenOClock
      = ⟨[⟨0, tenOClock, "policy_violation", "active|||100"⟩], none⟩ ∧
    violationsStrict marshalBars "active" tenOClock unnamed [bareRule] = [] :=
  ⟨rfl, rfl, rfl, rfl, rfl, rfl⟩

/-- C3 (amended). When the current policy has a non-empty raw document that parses to the
rule list `doc.Rules` and the processes `procs` are enumerated, `Run` returns no error and
exactly these events: for each rule whose `type` is the string `block_process`, in rule
order, and each process, in process order, whose name is equal to the rule's `match` read as
a string (the empty string when the entry is absent or not a string), one event with id 0 and
type `policy_violation` whose payload is the JSON of the policy id, the rule's `id` read as a
string in the same way, and the name and pid of the process. Their number is the number of
matching pairs. When every such rule carries a string `match` and a string `id`, these are
the events of the claim read strictly. -/
theorem enforcer_run (parse : String → Time) (unmarshal : String → Except String RuleDoc)
    (marshal : Any → String) (pstore : policy.DBStore) (p : Policy) (doc : RuleDoc)
    (procs : List Process) (now : Time)
    (hget : pstore.Get parse = some p) (hraw : p.Raw ≠ "")
    (hparse : unmarshal p.Raw = .ok doc) :
    policyEnforcer.Run parse unmarshal marshal pstore (.ok procs) now
      = ⟨violationsSpec marshal p.ID now.UTC procs doc.Rules, none⟩ ∧
    (violationsSpec marshal p.ID now.UTC procs doc.Rules).length
      = ((doc.Rules.filter isBlockProcess).map
          (fun r => procs.countP (fun q => q.Name = ruleField r "match"))).sum ∧
    (∀ e ∈ violationsSpec marshal p.ID now.UTC procs doc.Rules,
      e.ID = 0 ∧ e.Timestamp = now.UTC ∧ e.Typ = "policy_violation" ∧
      ∃ r ∈ doc.Rules, ∃ q ∈ procs, isBlockProcess r = true ∧ q.Name = ruleField r "match" ∧
        e.Payload = marshal (Any.object [("policy_id", Any.string p.ID),
          ("rule_id", Any.string (ruleField r "id")),
          ("process", Any.object [("name", Any.string q.Name), ("pid", Any.int q.Pid)])])) ∧
    ((∀ r ∈ doc.Rules, isBlockProcess r = true →
        (∃ m, r.lookup "match" = some (Any.string m)) ∧
          (∃ i, r.lookup "id" = some (Any.string i))) →
      policyEnforcer.Run parse unmarshal marshal pstore (.ok procs) now
        = ⟨violationsStrict marshal p.ID now.UTC procs doc.Rules, none⟩) := by
  have hrun : policyEnforcer.Run parse unmarshal marshal pstore (.ok procs) now
      = ⟨violationsSpec marshal p.ID now.UTC procs doc.Rules, none⟩ := by
    unfold policyEnforcer.Run
    simp only [hget, hraw, if_false, hparse]
    rw [enforceRules_eq_spec]
  refine ⟨hrun, ?_, ?_, ?_⟩
  · unfold violationsSpec
    rw [List.length_flatMap]
    congr 1
    apply List.map_congr_left
    intro r _
    simp [List.countP_eq_length_filter]
  · intro e he
    unfold violationsSpec at he
    rw [List.mem_flatMap] at he
    obtain ⟨r, hr, he⟩ := he
    obtain ⟨q, hq, rfl⟩ := List.mem_map.mp he
    rw [List.mem_filter] at hr hq
    exact ⟨rfl, rfl, rfl, r, hr.1, q, hq.1, hr.2, by simpa using hq.2, rfl⟩
  · intro hwf
    rw [hrun, violationsSpec_eq_strict marshal p.ID now.UTC procs doc.Rules hwf]

/-! ## Scheduler tick -/

theorem ranNames_append (a b : List Call) : ranNames (a ++ b) = ranNames a ++ ranNames b := by
  induction a with
  | nil => rfl
  | cons c t ih => cases c <;> simp [ranNames, ih]

theorem ranResults_append (a b : List Call) :
    ranResults (a ++ b) = ranResults a ++ ranResults b := by
  induction a with
  | nil => rfl
  | cons c t ih => cases c <;> simp [ranResults, ih]

theorem savedEvents_append (a b : List Call) :
    savedEvents (a ++ b) = savedEvents a ++ savedEvents b := by
  induction a with
  | nil => rfl
  | cons c t ih => cases c <;> simp [savedEvents, ih]

theorem effects_append (a b : List Call) : effects (a ++ b) = effects a ++ effects b := by
  induction a with
  | nil => rfl
  | cons c t ih => cases c <;> simp [effects, ih]

/-- The save loop runs no module, saves every event of the batch in order, whatever each
`Save` returns, and sends nothing. -/
theorem saveEach_trace {σ : Type} (save : Event → σ → Option String × σ) :
    ∀ (evts : Events) (w : σ),
      ranNames (saveEach save evts w).2 = [] ∧ ranResults (saveEach save evts w).2 = [] ∧
      savedEvents (saveEach save evts w).2 = evts ∧
      effects (saveEach save evts w).2 = evts.map Effect.save := by
  intro evts
  induction evts with
  | nil => intro w; simp [saveEach, ranNames, ranResults, savedEvents, effects]
  | cons e es ih =>
    intro w
    obtain ⟨h1, h2, h3, h4⟩ := ih (save e w).2
    simp only [saveEach]
    cases (save e w).1 with
    | none =>
      simp [ranNames, ranResults, savedEvents, effects, h1, h2, h3, h4]
    | some m =>
      simp [ranNames, ranResults, savedEvents, effects, h1, h2, h3, h4]

theorem sendBatch_trace {σ : Type} (gc : Option (Events → σ → Option String × σ))
    (evts : Events) (w : σ) :
    ranNames (sendBatch gc evts w).2 = [] ∧ ranResults (sendBatch gc evts w).2 = [] ∧
    savedEvents (sendBatch gc evts w).2 = [] ∧
    effects (sendBatch gc evts w).2 = (if gc.isSome then [Effect.send evts] else []) := by
  cases gc with
  | none => simp [sendBatch, ranNames, ranResults, savedEvents, effects]
  | some send =>
    simp only [sendBatch]
    cases (send evts w).1 <;> simp [ranNames, ranResults, savedEvents, effects]

theorem handleResult_trace {σ : Type} (svc : Service σ) (name : String) (res : RunResult)
    (w : σ) :
    ranNames (handleResult svc name res w).2 = [] ∧
    ranResults (handleResult svc name res w).2 = [] ∧
    savedEvents (handleResult svc name res w).2 = (if res.err.isNone then res.evts else []) ∧
    effects (handleResult svc name res w).2 =
      (if res.err.isNone ∧ res.evts ≠ [] then
        res.evts.map Effect.save ++ (if svc.gc.isSome then [Effect.send res.evts] else [])
       else []) := by
  unfold handleResult
  cases herr : res.err with
  | some e => simp [ranNames, ranResults, savedEvents, effects]
  | none =>
    by_cases hlen : res.evts.length > 0
    · have hne : res.evts ≠ [] := List.length_pos.mp hlen
      obtain ⟨a1, a2, a3, a4⟩ := saveEach_trace svc.store res.evts w
      obtain ⟨b1, b2, b3, b4⟩ :=
        sendBatch_trace svc.gc res.evts (saveEach svc.store res.evts w).1
      simp only [if_pos hlen, ranNames_append, ranResults_append, savedEvents_append,
        effects_append, a1, a2, a3, a4, b1, b2, b3, b4]
      simp [hne]
    · have hnil : res.evts = [] := by
        cases h : res.evts with
        | nil => rfl
        | cons a t => rw [h] at hlen; simp at hlen
      simp [hlen, hnil, ranNames, ranResults, savedEvents, effects]

theorem runModules_trace {σ : Type} (svc : Service σ) : ∀ (ms : Modules σ) (w : σ),
    ranNames (runModules svc ms w).2 = ms.map (·.Name) ∧
    (ranResults (runModules svc ms w).2).length = ms.length ∧
    savedEvents (runModules svc ms w).2 = persistSpec (ranResults (runModules svc ms w).2) ∧
    effects (runModules svc ms w).2 =
      (ranResults (runModules svc ms w).2).flatMap (fun r =>
        if r.err.isNone ∧ r.evts ≠ [] then
          r.evts.map Effect.save ++ (if svc.gc.isSome then [Effect.send r.evts] else [])
        else []) := by
  intro ms
  induction ms with
  | nil => intro w; simp [runModules, ranNames, ranResults, savedEvents, effects, persistSpec]
  | cons m ms ih =>
    intro w
    obtain ⟨a1, a2, a3, a4⟩ := handleResult_trace svc m.Name (m.Run w).1 (m.Run w).2
    obtain ⟨b1, b2, b3, b4⟩ := ih (handleResult svc m.Name (m.Run w).1 (m.Run w).2).1
    have e : (runModules svc (m :: ms) w).2 =
        Call.info "running module" ["module", m.Name] :: Call.run m.Name (m.Run w).1 ::
          ((handleResult svc m.Name (m.Run w).1 (m.Run w).2).2 ++
            (runModules svc ms (handleResult svc m.Name (m.Run w).1 (m.Run w).2).1).2) := rfl
    have r1 : ranResults (runModules svc (m :: ms) w).2 = (m.Run w).1 ::
        ranResults (runModules svc ms (handleResult svc m.Name (m.Run w).1 (m.Run w).2).1).2 := by
      rw [e]; simp only [ranResults, ranResults_append, a2, List.nil_append]
    refine ⟨?_, ?_, ?_, ?_⟩
    · rw [e]; simp only [ranNames, ranNames_append, a1, b1, List.nil_append, List.map_cons]
    · rw [r1, List.length_cons, b2, List.length_cons]
    · rw [r1, e]
      simp only [savedEvents, savedEvents_append, a3, b3, persistSpec, List.flatMap_cons]
    · rw [r1, e]
      simp only [effects, effects_append, a4, b4, List.flatMap_cons]

theorem saveCalls_append (a b : List Call) : saveCalls (a ++ b) = saveCalls a ++ saveCalls b := by
  induction a with
  | nil => rfl
  | cons c t ih => cases c <;> simp [saveCalls, ih]

theorem sendCalls_append (a b : List Call) : sendCalls (a ++ b) = sendCalls a ++ sendCalls b := by
  induction a with
  | nil => rfl
  | cons c t ih => cases c <;> simp [sendCalls, ih]

/-- The save loop applies `save` to every event in order and leaves the world these calls
leave. -/
theorem saveEach_calls {σ : Type} (save : Event → σ → Option String × σ) :
    ∀ (evts : Events) (w : σ),
      (saveEach save evts w).1 = savedWorld save evts w ∧
      saveCalls (saveEach save evts w).2 = saveOutcomes save evts w ∧
      sendCalls (saveEach save evts w).2 = [] := by
  intro evts
  induction evts with
  | nil => intro w; simp [saveEach, savedWorld, saveCalls, saveOutcomes, sendCalls]
  | cons e es ih =>
    intro w
    obtain ⟨h1, h2, h3⟩ := ih (save e w).2
    simp only [saveEach, savedWorld, saveOutcomes]
    cases (save e w).1 with
    | none => simp [saveCalls, sendCalls, h1, h2, h3]
    | some m => simp [saveCalls, sendCalls, h1, h2, h3]

theorem sendBatch_calls {σ : Type} (gc : Option (Events → σ → Option String × σ))
    (evts : Events) (w : σ) :
    (sendBatch gc evts w).1 = (match gc with | some send => (send evts w).2 | none => w) ∧
    saveCalls (sendBatch gc evts w).2 = [] ∧
    sendCalls (sendBatch gc evts w).2
      = (match gc with | some send => [(evts, (send evts w).1)] | none => []) := by
  cases gc with
  | none => simp [sendBatch, saveCalls, sendCalls]
  | some send =>
    simp only [sendBatch]
    cases (send evts w).1 <;> simp [saveCalls, sendCalls]

theorem handleResult_calls {σ : Type} (svc : Service σ) (name : String) (res : RunResult)
    (w : σ) :
    (handleResult svc name res w).1 = worldAfterResult svc res w ∧
    saveCalls (handleResult svc name res w).2
      = (if res.err.isNone then saveOutcomes svc.store res.evts w else []) ∧
    sendCalls (handleResult svc name res w).2
      = (if res.err.isNone ∧ res.evts ≠ [] then
          (match svc.gc with
            | some send => [(res.evts, (send res.evts (savedWorld svc.store res.evts w)).1)]
            | none => [])
         else []) := by
  unfold handleResult worldAfterResult
  cases herr : res.err with
  | some e => simp [saveCalls, sendCalls]
  | none =>
    by_cases hlen : res.evts.length > 0
    · have hne : res.evts ≠ [] := List.length_pos.mp hlen
      obtain ⟨a1, a2, a3⟩ := saveEach_calls svc.store res.evts w
      obtain ⟨b1, b2, b3⟩ := sendBatch_calls svc.gc res.evts (savedWorld svc.store res.evts w)
      simp only [if_pos hlen, a1, saveCalls_append, sendCalls_append, a2, a3, b1, b2, b3]
      cases svc.gc <;> simp [hne]
    · have hnil : res.evts = [] := by
        cases h : res.evts with
        | nil => rfl
        | cons a t => rw [h] at hlen; simp at hlen
      simp [hlen, hnil, saveCalls, sendCalls, saveOutcomes]

/-- The module loop against the specification of a tick: the results are those of the
modules' `Run`, each in the world the one before left, the `Save` and `SendEvents` calls with
their outcomes are the specified ones, and so is the world the loop leaves. -/
theorem runModules_calls {σ : Type} (svc : Service σ) : ∀ (ms : Modules σ) (w : σ),
    (runModules svc ms w).1 = tickWorld svc ms w ∧
    ranResults (runModules svc ms w).2 = (tickRuns svc ms w).map (·.1) ∧
    saveCalls (runModules svc ms w).2 = saveCallsSpec svc (tickRuns svc ms w) ∧
    sendCalls (runModules svc ms w).2
      = (tickRuns svc ms w).flatMap (fun rw =>
          if rw.1.err.isNone ∧ rw.1.evts ≠ [] then
            (match svc.gc with
              | some send =>
                [(rw.1.evts, (send rw.1.evts (savedWorld svc.store rw.1.evts rw.2)).1)]
              | none => [])
          else []) := by
  intro ms
  induction ms with
  | nil =>
    intro w
    simp [runModules, tickWorld, tickRuns, ranResults, saveCalls, sendCalls, saveCallsSpec]
  | cons m ms ih =>
    intro w
    obtain ⟨a1, a2, a3⟩ := handleResult_calls svc m.Name (m.Run w).1 (m.Run w).2
    obtain ⟨_, t2, _, _⟩ := handleResult_trace svc m.Name (m.Run w).1 (m.Run w).2
    obtain ⟨b1, b2, b3, b4⟩ := ih (handleResult svc m.Name (m.Run w).1 (m.Run w).2).1
    rw [a1] at b1 b2 b3 b4
    have e : (runModules svc (m :: ms) w).2 =
        Call.info "running module" ["module", m.Name] :: Call.run m.Name (m.Run w).1 ::
          ((handleResult svc m.Name (m.Run w).1 (m.Run w).2).2 ++
            (runModules svc ms (handleResult svc m.Name (m.Run w).1 (m.Run w).2).1).2) := rfl
    have ew : (runModules svc (m :: ms) w).1 =
        (runModules svc ms (handleResult svc m.Name (m.Run w).1 (m.Run w).2).1).1 := rfl
    rw [a1] at e ew
    refine ⟨?_, ?_, ?_, ?_⟩
    · rw [ew, b1]; rfl
    · rw [e]
      simp only [ranResults, ranResults_append, t2, List.nil_append, b2, tickRuns,
        List.map_cons]
    · rw [e]
      simp only [saveCalls, saveCalls_append, a2, b3, saveCallsSpec, tickRuns,
        List.flatMap_cons]
    · rw [e]
      simp only [sendCalls, sendCalls_append, a3, b4, tickRuns, List.flatMap_cons]

/-- C7. In a tick, whatever each module's `Run`, each `Save` and each `SendEvents` returns:
every registered module is run, in registration order, each in the world the tick has
reached, and its result is what its `Run` returns there; `Save` of the service's store is
called once for every event of every module that returned no error, in registration order
and then in the order produced, each call in the world the previous call left, whatever the
earlier calls returned; and the world after the tick is the one these runs, saves and sends
leave. -/
theorem runOnce_persists_all {σ : Type} (svc : Service σ) (w : σ) :
    ranNames (svc.runOnce w).2 = svc.mods.mods.map (·.Name) ∧
    (ranResults (svc.runOnce w).2).length = svc.mods.mods.length ∧
    savedEvents (svc.runOnce w).2 = persistSpec (ranResults (svc.runOnce w).2) ∧
    ranResults (svc.runOnce w).2 = (tickRuns svc svc.mods.mods w).map (·.1) ∧
    savedEvents (svc.runOnce w).2 = persistSpec ((tickRuns svc svc.mods.mods w).map (·.1)) ∧
    saveCalls (svc.runOnce w).2 = saveCallsSpec svc (tickRuns svc svc.mods.mods w) ∧
    (svc.runOnce w).1 = tickWorld svc svc.mods.mods w := by
  obtain ⟨h1, h2, h3, _⟩ := runModules_trace svc svc.mods.List w
  obtain ⟨c1, c2, c3, _⟩ := runModules_calls svc svc.mods.List w
  simp only [Service.runOnce, ranNames, ranResults, savedEvents, saveCalls]
  exact ⟨h1, h2, h3, c2, c2 ▸ h3, c3, c1⟩

/-- C8. In a tick of a service whose gateway client is set, the store and gateway calls are,
module by module: for a module whose `Run` returned a non-empty batch and no error, one
`Save` per event in produced order and then exactly one call of the client's `SendEvents`
with the whole batch, in the world the saves left, recorded with what it returned and never
repeated; for a module that failed or returned nothing, no call at all. The world after the
tick is the one these calls leave. -/
theorem runOnce_sends_once {σ : Type} (svc : Service σ) (w : σ)
    (send : Events → σ → Option String × σ) (hgc : svc.gc = some send) :
    effects (svc.runOnce w).2 = effectsSpec (ranResults (svc.runOnce w).2) ∧
    effects (svc.runOnce w).2 = effectsSpec ((tickRuns svc svc.mods.mods w).map (·.1)) ∧
    sendCalls (svc.runOnce w).2 = sendCallsSpec svc send (tickRuns svc svc.mods.mods w) ∧
    (svc.runOnce w).1 = tickWorld svc svc.mods.mods w := by
  obtain ⟨_, _, _, h4⟩ := runModules_trace svc svc.mods.List w
  obtain ⟨c1, c2, _, c4⟩ := runModules_calls svc svc.mods.List w
  have he : effects (svc.runOnce w).2 = effectsSpec (ranResults (svc.runOnce w).2) := by
    simp only [Service.runOnce, ranResults, effects]
    rw [h4, hgc]
    simp [effectsSpec]
  refine ⟨he, ?_, ?_, ?_⟩
  · rw [he]
    simp only [Service.runOnce, ranResults]
    rw [c2]; rfl
  · simp only [Service.runOnce, sendCalls]
    rw [c4, hgc]
    rfl
  · exact c1

/-! ## Gateway client -/

/-- C9 (amended). With a non-empty endpoint URL, a batch that marshals and a request that is
built and completes with status code `status`, `SendEvents` returns an error exactly when
`status` is 400 or more: every 2xx response is a success, and so is every response with a
status below 400 that is not 2xx. -/
theorem sendEvents_by_status (net : Net) (h : httpClient) (evts : Events) (payload : String)
    (status : Int) (hurl : h.url ≠ "") (hm : net.marshal evts = .ok payload)
    (hreq : net.newRequest h.url = none) (hdo : net.roundTrip h.url payload = .ok status) :
    (400 ≤ status →
      h.SendEvents net evts = some ("gateway returned status " ++ toString status)) ∧
    (status < 400 → h.SendEvents net evts = none) ∧
    (200 ≤ status ∧ status < 300 → h.SendEvents net evts = none) := by
  have key : h.SendEvents net evts =
      if status ≥ 400 then some ("gateway returned status " ++ toString status) else none := by
    unfold httpClient.SendEvents
    simp only [hurl, if_false, hm, hreq, hdo]
  refine ⟨fun h4 => ?_, fun h4 => ?_, fun h2 => ?_⟩
  · rw [key, if_pos h4]
  · rw [key, if_neg (not_le.mpr h4)]
  · rw [key, if_neg (not_le.mpr (by omega))]

/-! ## Policy fetcher -/

/-- C10 (amended). A fetch cycle whose request cannot be built, whose transport fails, whose
response has a status of 400 or more, whose body cannot be read or whose body does not parse
makes no `Set` call and leaves the policy store as it was. -/
theorem fetch_failure_keeps_store (env : FetchEnv) (url : String)
    (pol : Option policy.DBStore)
    (hfail : (∃ e, env.newRequest url = some e) ∨ (∃ e, env.get url = .error e) ∨
      ∃ resp, env.get url = .ok resp ∧
        (400 ≤ resp.StatusCode ∨ (∃ e, resp.Body = .error e) ∨
          ∃ b e, resp.Body = .ok b ∧ env.yamlUnmarshal b = .error e)) :
    (fetchPolicyOnce env url pol).1 = pol ∧ setCalls (fetchPolicyOnce env url pol).2 = [] := by
  unfold fetchPolicyOnce
  cases pol with
  | none => exact ⟨rfl, rfl⟩
  | some store =>
    by_cases hu : url = ""
    · simp [hu, setCalls]
    · simp only [hu, if_false]
      cases hreq : env.newRequest url with
      | some e => exact ⟨rfl, rfl⟩
      | none =>
        cases hget : env.get url with
        | error e => exact ⟨rfl, rfl⟩
        | ok resp =>
          by_cases hs : resp.StatusCode ≥ 400
          · simp [hs, setCalls]
          · simp only [hs, if_false]
            cases hb : resp.Body with
            | error e => exact ⟨rfl, rfl⟩
            | ok b =>
              dsimp only
              cases hy : env.yamlUnmarshal b with
              | error e => exact ⟨rfl, rfl⟩
              | ok doc =>
                exfalso
                rcases hfail with ⟨e, h⟩ | ⟨e, h⟩ | ⟨r, hr, h⟩
                · rw [hreq] at h; cases h
                · rw [hget] at h; cases h
                · rw [hget] at hr
                  injection hr with hr
                  subst hr
                  rcases h with h | ⟨e, h⟩ | ⟨b2, e, h1, h2⟩
                  · exact hs h
                  · rw [hb] at h; cases h
                  · rw [hb] at h1
                    injection h1 with h1
                    subst h1
                    rw [hy] at h2; cases h2

/-! ## RFC3339 text of UTC times in the years 1 to 9999 -/

theorem digitChar_code (d : Nat) (h : d < 10) : (Nat.digitChar d).toNat = 48 + d := by
  interval_cases d <;> rfl

theorem toDigitsCore_one (f n : Nat) (ds : List Char) (h : n < 10) :
    Nat.toDigitsCore 10 (f + 1) n ds = Nat.digitChar n :: ds := by
  have h1 : n / 10 = 0 := by omega
  have h2 : n % 10 = n := by omega
  simp [Nat.toDigitsCore, h1, h2]

theorem toDigitsCore_two (f n : Nat) (ds : List Char) (h : n < 100) (h10 : 10 ≤ n) :
    Nat.toDigitsCore 10 (f + 2) n ds = Nat.digitChar (n / 10) :: Nat.digitChar (n % 10) :: ds := by
  have h1 : n / 10 ≠ 0 := by omega
  rw [Nat.toDigitsCore]
  simp only [h1, if_false]
  exact toDigitsCore_one f (n / 10) _ (by omega)

theorem toDigitsCore_three (f n : Nat) (ds : List Char) (h : n < 1000) (h10 : 100 ≤ n) :
    Nat.toDigitsCore 10 (f + 3) n ds
      = Nat.digitChar (n / 100) :: Nat.digitChar (n / 10 % 10) :: Nat.digitChar (n % 10)
          :: ds := by
  have h1 : n / 10 ≠ 0 := by omega
  rw [Nat.toDigitsCore]
  simp only [h1, if_false]
  rw [toDigitsCore_two f (n / 10) _ (by omega) (by omega)]
  have : n / 10 / 10 = n / 100 := by omega
  rw [this]

theorem toDigitsCore_four (f n : Nat) (ds : List Char) (h : n < 10000) (h10 : 1000 ≤ n) :
    Nat.toDigitsCore 10 (f + 4) n ds
      = Nat.digitChar (n / 1000) :: Nat.digitChar (n / 100 % 10) :: Nat.digitChar (n / 10 % 10)
          :: Nat.digitChar (n % 10) :: ds := by
  have h1 : n / 10 ≠ 0 := by omega
  rw [Nat.toDigitsCore]
  simp only [h1, if_false]
  rw [toDigitsCore_three f (n / 10) _ (by omega) (by omega)]
  have e1 : n / 10 / 100 = n / 1000 := by omega
  have e2 : n / 10 / 10 % 10 = n / 100 % 10 := by omega
  rw [e1, e2]

theorem textKey_append (a b : String) : textKey (a ++ b) = textKey a ++ textKey b := by
  simp [textKey, String.data_append]

/-- The code points of a two-digit field. -/
theorem textKey_appendInt_two (x : Int) (h0 : 0 ≤ x) (h : x < 100) :
    textKey (appendInt x 2) = [48 + x.toNat / 10, 48 + x.toNat % 10] := by
  obtain ⟨n, rfl⟩ := Int.eq_ofNat_of_zero_le h0
  have hn : n < 100 := by omega
  have hneg : ¬ ((n : Int) < 0) := by omega
  simp only [appendInt, Int.natAbs_ofNat, hneg, if_false, Int.toNat_ofNat]
  by_cases h10 : n < 10
  · have hd : Nat.repr n = String.mk [Nat.digitChar n] := by
      simp only [Nat.repr, Nat.toDigits]
      rw [toDigitsCore_one n n [] h10]; rfl
    rw [hd]
    have e1 : n / 10 = 0 := by omega
    have e2 : n % 10 = n := by omega
    simp [textKey, String.length, digitChar_code n h10, e1, e2]
  · have hd : Nat.repr n = String.mk [Nat.digitChar (n / 10), Nat.digitChar (n % 10)] := by
      simp only [Nat.repr, Nat.toDigits]
      have hf : n + 1 = (n - 1) + 2 := by omega
      rw [hf, toDigitsCore_two (n - 1) n [] hn (by omega)]; rfl
    rw [hd]
    simp [textKey, String.length, digitChar_code (n / 10) (by omega),
      digitChar_code (n % 10) (by omega)]

/-- The code points of a four-digit field. -/
theorem textKey_appendInt_four (x : Int) (h0 : 0 ≤ x) (h : x < 10000) :
    textKey (appendInt x 4)
      = [48 + x.toNat / 1000, 48 + x.toNat / 100 % 10, 48 + x.toNat / 10 % 10,
          48 + x.toNat % 10] := by
  obtain ⟨n, rfl⟩ := Int.eq_ofNat_of_zero_le h0
  have hn : n < 10000 := by omega
  have hneg : ¬ ((n : Int) < 0) := by omega
  simp only [appendInt, Int.natAbs_ofNat, hneg, if_false, Int.toNat_ofNat]
  by_cases h10 : n < 10
  · have hd : Nat.repr n = String.mk [Nat.digitChar n] := by
      simp only [Nat.repr, Nat.toDigits]
      rw [toDigitsCore_one n n [] h10]; rfl
    rw [hd]
    have e1 : n / 1000 = 0 := by omega
    have e2 : n / 100 % 10 = 0 := by omega
    have e3 : n / 10 % 10 = 0 := by omega
    have e4 : n % 10 = n := by omega
    simp [textKey, String.length, digitChar_code n h10, e1, e2, e3, e4, List.replicate]
  · by_cases h100 : n < 100
    · have hd : Nat.repr n = String.mk [Nat.digitChar (n / 10), Nat.digitChar (n % 10)] := by
        simp only [Nat.repr, Nat.toDigits]
        have hf : n + 1 = (n - 1) + 2 := by omega
        rw [hf, toDigitsCore_two (n - 1) n [] h100 (by omega)]; rfl
      rw [hd]
      have e1 : n / 1000 = 0 := by omega
      have e2 : n / 100 % 10 = 0 := by omega
      have e3 : n / 10 % 10 = n / 10 := by omega
      simp [textKey, String.length, digitChar_code (n / 10) (by omega),
        digitChar_code (n % 10) (by omega), e1, e2, e3, List.replicate]
    · by_cases h1000 : n < 1000
      · have hd : Nat.repr n = String.mk [Nat.digitChar (n / 100),
            Nat.digitChar (n / 10 % 10), Nat.digitChar (n % 10)] := by
          simp only [Nat.repr, Nat.toDigits]
          have hf : n + 1 = (n - 2) + 3 := by omega
          rw [hf, toDigitsCore_three (n - 2) n [] h1000 (by omega)]; rfl
        rw [hd]
        have e1 : n / 1000 = 0 := by omega
        have e2 : n / 100 % 10 = n / 100 := by omega
        simp [textKey, String.length, digitChar_code (n / 100) (by omega),
          digitChar_code (n / 10 % 10) (by omega), digitChar_code (n % 10) (by omega), e1, e2,
          List.replicate]
      · have hd : Nat.repr n = String.mk [Nat.digitChar (n / 1000),
            Nat.digitChar (n / 100 % 10), Nat.digitChar (n / 10 % 10),
            Nat.digitChar (n % 10)] := by
          simp only [Nat.repr, Nat.toDigits]
          have hf : n + 1 = (n - 3) + 4 := by omega
          rw [hf, toDigitsCore_four (n - 3) n [] hn (by omega)]; rfl
        rw [hd]
        simp [textKey, String.length, digitChar_code (n / 1000) (by omega),
          digitChar_code (n / 100 % 10) (by omega), digitChar_code (n / 10 % 10) (by omega),
          digitChar_code (n % 10) (by omega)]

theorem cons_lt_cons (a b : Nat) (l m : List Nat) :
    a :: l < b :: m ↔ a < b ∨ (a = b ∧ l < m) := by
  constructor
  · intro h
    cases h with
    | cons h => exact Or.inr ⟨rfl, h⟩
    | rel h => exact Or.inl h
  · rintro (h | ⟨rfl, h⟩)
    · exact List.Lex.rel h
    · exact List.Lex.cons h

theorem append_lt_append_left (p x y : List Nat) (h : x < y) : p ++ x < p ++ y := by
  induction p with
  | nil => exact h
  | cons a t ih => exact (cons_lt_cons a a _ _).mpr (Or.inr ⟨rfl, ih⟩)

/-- Two-digit fields compare as their numbers do. -/
theorem field2_lt (a b : Int) (x y : List Nat) (ha : 0 ≤ a) (hab : a < b) (hb : b < 100) :
    textKey (appendInt a 2) ++ x < textKey (appendInt b 2) ++ y := by
  rw [textKey_appendInt_two a ha (by omega), textKey_appendInt_two b (by omega) hb]
  simp only [List.cons_append, List.nil_append, cons_lt_cons]
  omega

/-- Four-digit fields compare as their numbers do. -/
theorem field4_lt (a b : Int) (x y : List Nat) (ha : 0 ≤ a) (hab : a < b) (hb : b < 10000) :
    textKey (appendInt a 4) ++ x < textKey (appendInt b 4) ++ y := by
  rw [textKey_appendInt_four a ha (by omega), textKey_appendInt_four b (by omega) hb]
  simp only [List.cons_append, List.nil_append, cons_lt_cons]
  omega

theorem era_lex (z1 z2 : Int) (h : z1 < z2) :
    era z1 < era z2 ∨ (era z1 = era z2 ∧ dayOfEra z1 < dayOfEra z2) := by
  unfold era dayOfEra; omega

theorem dayOfEra_range (z : Int) : 0 ≤ dayOfEra z ∧ dayOfEra z ≤ 146096 := by
  unfold dayOfEra; omega

theorem century_lex (a b : Int) (h : a < b) (h1 : b ≤ 146096) :
    century a < century b ∨ (century a = century b ∧ dayOfCentury a < dayOfCentury b) := by
  unfold dayOfCentury century; omega

theorem century_range (a : Int) (h0 : 0 ≤ a) (h1 : a ≤ 146096) :
    0 ≤ century a ∧ century a ≤ 3 ∧ 0 ≤ dayOfCentury a ∧ dayOfCentury a ≤ 36524 := by
  unfold dayOfCentury century; omega

theorem quad_lex (a b : Int) (h : a < b) :
    quad a < quad b ∨ (quad a = quad b ∧ dayOfQuad a < dayOfQuad b) := by
  unfold quad dayOfQuad; omega

theorem quad_range (a : Int) (h0 : 0 ≤ a) (h1 : a ≤ 36524) :
    0 ≤ quad a ∧ quad a ≤ 24 ∧ 0 ≤ dayOfQuad a ∧ dayOfQuad a ≤ 1460 := by
  unfold quad dayOfQuad; omega

theorem yearOfQuad_lex (a b : Int) (h : a < b) (h1 : b ≤ 1460) :
    yearOfQuad a < yearOfQuad b ∨
      (yearOfQuad a = yearOfQuad b ∧ dayOfYear a < dayOfYear b) := by
  unfold dayOfYear yearOfQuad; omega

theorem yearOfQuad_range (a : Int) (h0 : 0 ≤ a) (h1 : a ≤ 1460) :
    0 ≤ yearOfQuad a ∧ yearOfQuad a ≤ 3 ∧ 0 ≤ dayOfYear a ∧ dayOfYear a ≤ 365 := by
  unfold dayOfYear yearOfQuad; omega

theorem month_lex (a b : Int) (h : a < b) :
    monthIndex a < monthIndex b ∨
      (monthIndex a = monthIndex b ∧ dayOfMonth a < dayOfMonth b) := by
  unfold dayOfMonth monthIndex; omega

theorem month_range (a : Int) (h0 : 0 ≤ a) (h1 : a ≤ 365) :
    0 ≤ monthIndex a ∧ monthIndex a ≤ 11 ∧ 1 ≤ dayOfMonth a ∧ dayOfMonth a ≤ 31 := by
  unfold dayOfMonth monthIndex; omega

/-- Month and day of every date are in range. -/
theorem civilDate_month_day (z : Int) :
    1 ≤ (civilDate z).2.1 ∧ (civilDate z).2.1 ≤ 12 ∧ 1 ≤ (civilDate z).2.2 ∧
      (civilDate z).2.2 ≤ 31 := by
  obtain ⟨e0, e1⟩ := dayOfEra_range z
  obtain ⟨_, _, c0, c1⟩ := century_range (dayOfEra z) e0 e1
  obtain ⟨_, _, q0, q1⟩ := quad_range (dayOfCentury (dayOfEra z)) c0 c1
  obtain ⟨_, _, y0, y1⟩ := yearOfQuad_range (dayOfQuad (dayOfCentury (dayOfEra z))) q0 q1
  obtain ⟨m0, m1, d0, d1⟩ :=
    month_range (dayOfYear (dayOfQuad (dayOfCentury (dayOfEra z)))) y0 y1
  simp only [civilDate]
  split_ifs <;> omega

/-- A later day has a later date: year, month and day grow lexicographically. -/
theorem civilDate_lex (z1 z2 : Int) (h : z1 < z2) :
    (civilDate z1).1 < (civilDate z2).1 ∨
      ((civilDate z1).1 = (civilDate z2).1 ∧
        ((civilDate z1).2.1 < (civilDate z2).2.1 ∨
          ((civilDate z1).2.1 = (civilDate z2).2.1 ∧
            (civilDate z1).2.2 < (civilDate z2).2.2))) := by
  obtain ⟨e0, e1⟩ := dayOfEra_range z1
  obtain ⟨e0', e1'⟩ := dayOfEra_range z2
  obtain ⟨cl, cu, c0, c1⟩ := century_range (dayOfEra z1) e0 e1
  obtain ⟨cl', cu', c0', c1'⟩ := century_range (dayOfEra z2) e0' e1'
  obtain ⟨ql, qu, q0, q1⟩ := quad_range (dayOfCentury (dayOfEra z1)) c0 c1
  obtain ⟨ql', qu', q0', q1'⟩ := quad_range (dayOfCentury (dayOfEra z2)) c0' c1'
  obtain ⟨yl, yu, y0, y1⟩ := yearOfQuad_range (dayOfQuad (dayOfCentury (dayOfEra z1))) q0 q1
  obtain ⟨yl', yu', y0', y1'⟩ :=
    yearOfQuad_range (dayOfQuad (dayOfCentury (dayOfEra z2))) q0' q1'
  obtain ⟨m0, m1, d0, d1⟩ :=
    month_range (dayOfYear (dayOfQuad (dayOfCentury (dayOfEra z1)))) y0 y1
  obtain ⟨m0', m1', d0', d1'⟩ :=
    month_range (dayOfYear (dayOfQuad (dayOfCentury (dayOfEra z2)))) y0' y1'
  simp only [civilDate]
  rcases era_lex z1 z2 h with hA | ⟨hA, hA'⟩
  · split_ifs <;> omega
  · rcases century_lex _ _ hA' e1' with hB | ⟨hB, hB'⟩
    · split_ifs <;> omega
    · rcases quad_lex _ _ hB' with hC | ⟨hC, hC'⟩
      · split_ifs <;> omega
      · rcases yearOfQuad_lex _ _ hC' q1' with hD | ⟨hD, hD'⟩
        · split_ifs <;> omega
        · rcases month_lex _ _ hD' with hE | ⟨hE, hE'⟩
          · split_ifs <;> omega
          · split_ifs <;> omega

/-- The years 1 to 9999 are the days 0 to 3652058. -/
theorem civilDate_year_range (z : Int) (h0 : 0 ≤ z) (h1 : z < 3652059) :
    1 ≤ (civilDate z).1 ∧ (civilDate z).1 ≤ 9999 := by
  have hlo := civilDate_lex (-1) z (by omega)
  have hhi := civilDate_lex z 3652059 h1
  have e1 : civilDate (-1) = (0, 12, 31) := by decide
  have e2 : civilDate 3652059 = (10000, 1, 1) := by decide
  rw [e1] at hlo
  rw [e2] at hhi
  obtain ⟨ml, mu, dl, du⟩ := civilDate_month_day z
  simp only at hlo hhi
  omega

/-- Two UTC times of the years 1 to 9999 in different seconds: the RFC3339 text of the
earlier one is below the text of the later one in byte order. -/
theorem formatRFC3339_lt (t u : Time) (ht : t.offset = 0) (hu : u.offset = 0)
    (h0 : 0 ≤ t.sec) (hlt : t.sec < u.sec) (hmax : u.sec < 315537897600) :
    textKey (formatRFC3339 t) < textKey (formatRFC3339 u) := by
  have hd : t.sec / 86400 < u.sec / 86400 ∨
      (t.sec / 86400 = u.sec / 86400 ∧ t.sec % 86400 < u.sec % 86400) := by omega
  have hz1 : 0 ≤ t.sec / 86400 ∧ t.sec / 86400 < 3652059 := by omega
  have hz2 : 0 ≤ u.sec / 86400 ∧ u.sec / 86400 < 3652059 := by omega
  obtain ⟨yl, yu⟩ := civilDate_year_range _ hz1.1 hz1.2
  obtain ⟨yl', yu'⟩ := civilDate_year_range _ hz2.1 hz2.2
  obtain ⟨ml, mu, dl, du⟩ := civilDate_month_day (t.sec / 86400)
  obtain ⟨ml', mu', dl', du'⟩ := civilDate_month_day (u.sec / 86400)
  have hr1 : 0 ≤ t.sec % 86400 ∧ t.sec % 86400 < 86400 := by omega
  have hr2 : 0 ≤ u.sec % 86400 ∧ u.sec % 86400 < 86400 := by omega
  simp only [formatRFC3339, ht, hu, add_zero, formatZone, if_true, textKey_append,
    List.append_assoc]
  rcases hd with hd | ⟨hd, hr⟩
  · rcases civilDate_lex _ _ hd with hy | ⟨hy, hm | ⟨hm, hdd⟩⟩
    · exact field4_lt _ _ _ _ (by omega) hy (by omega)
    · rw [hy]
      refine append_lt_append_left _ _ _ (append_lt_append_left _ _ _ ?_)
      exact field2_lt _ _ _ _ (by omega) hm (by omega)
    · rw [hy, hm]
      refine append_lt_append_left _ _ _ (append_lt_append_left _ _ _
        (append_lt_append_left _ _ _ (append_lt_append_left _ _ _ ?_)))
      exact field2_lt _ _ _ _ (by omega) hdd (by omega)
  · rw [hd]
    refine append_lt_append_left _ _ _ (append_lt_append_left _ _ _
      (append_lt_append_left _ _ _ (append_lt_append_left _ _ _
        (append_lt_append_left _ _ _ (append_lt_append_left _ _ _ ?_)))))
    have hh : t.sec % 86400 / 3600 < u.sec % 86400 / 3600 ∨
        (t.sec % 86400 / 3600 = u.sec % 86400 / 3600 ∧
          (t.sec % 86400 % 3600 / 60 < u.sec % 86400 % 3600 / 60 ∨
            (t.sec % 86400 % 3600 / 60 = u.sec % 86400 % 3600 / 60 ∧
              t.sec % 86400 % 60 < u.sec % 86400 % 60))) := by omega
    rcases hh with hh | ⟨hh, hm | ⟨hm, hs⟩⟩
    · exact field2_lt _ _ _ _ (by omega) hh (by omega)
    · rw [hh]
      refine append_lt_append_left _ _ _ (append_lt_append_left _ _ _ ?_)
      exact field2_lt _ _ _ _ (by omega) hm (by omega)
    · rw [hh, hm]
      refine append_lt_append_left _ _ _ (append_lt_append_left _ _ _
        (append_lt_append_left _ _ _ (append_lt_append_left _ _ _ ?_)))
      exact field2_lt _ _ _ _ (by omega) hs (by omega)

/-! ## Claims at concrete inputs, and the remaining claims -/

namespace events

/-- A `Save` succeeds as long as the largest rowid ever used is below the largest integer. -/
theorem Save_succeeds (s : sqliteStore) (e : Event)
    (h : max s.seq (maxRowid s.rows) < maxInt64) : ∃ s1, s.Save e = .ok s1 := by
  unfold sqliteStore.Save
  simp only
  rw [if_neg (not_le.mpr h)]
  exact ⟨_, rfl⟩

theorem maxRowid_append (rows : List Row) (r : Row) :
    maxRowid (rows ++ [r]) = max (maxRowid rows) (max r.id 0) := by
  induction rows with
  | nil =>
    show max r.id 0 = max 0 (max r.id 0)
    omega
  | cons a l ih =>
    have e1 : maxRowid (a :: l ++ [r]) = max a.id (maxRowid (l ++ [r])) := rfl
    have e2 : maxRowid (a :: l) = max a.id (maxRowid l) := rfl
    rw [e1, e2, ih, max_assoc]

/-- A run of saves succeeds as long as the rowids do not run out: every save uses one more
than the largest rowid so far. -/
theorem saveAll_succeeds : ∀ (evs : Events) (s : sqliteStore),
    0 ≤ s.seq → max s.seq (maxRowid s.rows) + evs.length ≤ maxInt64 →
    ∃ s1, saveAll s evs = .ok s1 := by
  intro evs
  induction evs with
  | nil => intro s _ _; exact ⟨s, rfl⟩
  | cons e es ih =>
    intro s h0 h
    simp only [List.length_cons, Nat.cast_add, Nat.cast_one] at h
    obtain ⟨s1, hs1⟩ := Save_succeeds s e (by omega)
    have hs1c := hs1
    unfold sqliteStore.Save at hs1c
    simp only at hs1c
    rw [if_neg (by omega)] at hs1c
    injection hs1c with hs1c
    have hseq : s1.seq = max s.seq (maxRowid s.rows) + 1 := by rw [← hs1c]
    have hrows : maxRowid s1.rows
        = max (maxRowid s.rows) (max (max s.seq (maxRowid s.rows) + 1) 0) := by
      rw [← hs1c]; exact maxRowid_append _ _
    have hle := le_max_left s.seq (maxRowid s.rows)
    have hle2 := le_max_right s.seq (maxRowid s.rows)
    have hb : max s1.seq (maxRowid s1.rows) = max s.seq (maxRowid s.rows) + 1 := by
      rw [hseq, hrows]
      omega
    obtain ⟨s2, hs2⟩ := ih s1 (by omega) (by omega)
    exact ⟨s2, by simp only [saveAll, hs1, hs2]⟩

/-- C1 at a concrete input: two events saved into a new database, `List(1)`. -/
theorem list_after_saves_witness :
    emptyStore.rows = [] ∧ saveAll emptyStore [ev1, ev2] = .ok twoSaved ∧ (0 : Int) ≤ 1 ∧
    ((twoSaved.List parseZero 1).length = min (1 : Int).toNat [ev1, ev2].length ∧
     ((twoSaved.List parseZero 1).map (·.ID)).Pairwise (· > ·) ∧
     (∀ e, (twoSaved.List parseZero 1).head? = some e →
       ∃ l, [ev1, ev2].getLast? = some l ∧
         e = ⟨twoSaved.seq, parseZero (formatRFC3339 l.Timestamp), l.Typ, l.Payload⟩)) :=
  ⟨rfl, rfl, by decide,
    list_after_saves parseZero emptyStore twoSaved [ev1, ev2] 1 rfl rfl (by decide)⟩

/-- C2 fails for a negative limit: with two events stored, `List(-1)` returns both, which is
more than the limit and not the empty sequence. -/
theorem list_negative_limit_returns_all :
    saveAll emptyStore [ev1, ev2] = .ok twoSaved ∧
    twoSaved.List parseZero (-1) =
      [⟨2, parseZero "2024-01-01T10:00:00Z", "process_list", "two"⟩,
       ⟨1, parseZero "2024-01-01T10:00:00Z", "sysinfo", "one"⟩] ∧
    ¬ (((twoSaved.List parseZero (-1)).length : Int) ≤ -1) := by
  refine ⟨rfl, rfl, ?_⟩
  decide

/-- C2 (amended). For every store content: `List` with a negative limit returns every stored
event, each once, with the id, type and payload of its row and the parsed timestamp, by
descending id; `List(limit)` with `limit ≥ 0` returns the first `limit` of these, so
`min(limit, number of rows)` events, never more than `limit` and none for `limit = 0`. -/
theorem list_by_limit (parse : String → Time) (s : sqliteStore) (limit : Int) :
    (s.List parse (-1)).Perm (s.rows.map (fun r =>
      { ID := r.id, Timestamp := parse r.timestamp, Typ := r.type, Payload := r.payload })) ∧
    ((s.List parse (-1)).map (·.ID)).Sorted (· ≥ ·) ∧
    s.List parse limit
      = (if limit < 0 then s.List parse (-1) else (s.List parse (-1)).take limit.toNat) ∧
    (s.List parse limit).length =
      (if limit < 0 then s.rows.length else min limit.toNat s.rows.length) ∧
    s.List parse 0 = [] := by
  have hlen : (orderByIdDesc s.rows).length = s.rows.length := List.length_insertionSort _ _
  have hall : s.List parse (-1) = (orderByIdDesc s.rows).map (fun r =>
      { ID := r.id, Timestamp := parse r.timestamp, Typ := r.type, Payload := r.payload }) := by
    simp [sqliteStore.List, sqlLimit]
  refine ⟨?_, ?_, ?_, ?_, ?_⟩
  · rw [hall]
    exact (List.perm_insertionSort _ _).map _
  · rw [hall, List.map_map]
    haveI : IsTotal Row (fun a b => b.id ≤ a.id) := ⟨fun a b => le_total b.id a.id⟩
    haveI : IsTrans Row (fun a b => b.id ≤ a.id) :=
      ⟨fun a b c hab hbc => le_trans hbc hab⟩
    have hs : (orderByIdDesc s.rows).Sorted (fun a b => b.id ≤ a.id) :=
      List.sorted_insertionSort _ _
    exact List.pairwise_map.mpr hs
  · rw [hall]
    unfold sqliteStore.List sqlLimit
    by_cases h : limit < 0
    · simp [h]
    · simp [h, List.map_take]
  · unfold sqliteStore.List sqlLimit
    by_cases h : limit < 0
    · simp [h, hlen]
    · simp [h, hlen]
  · simp [sqliteStore.List, sqlLimit]

end events

namespace policy

/-- C4, the code against the claim and against the docstring of `Get` (`returns the most
recently updated policy`). `polB` is set after `polA` and stamped a tenth of a second later;
both are stored as `2024-01-01T10:00:00Z`, and `Get` returns `polA`, the row inserted first.
`polWest` is set after `polA` and stamped an hour later in a zone five hours west; it is
stored as `2024-01-01T06:00:00-05:00`, which sorts below the text of `polA`, and `Get` returns
`polA` again. -/
theorem get_not_latest_instant :
    polA.Updated.Before polB.Updated = true ∧
    storedText (polA, tenOClock) = "2024-01-01T10:00:00Z" ∧
    storedText (polB, tenOClock) = "2024-01-01T10:00:00Z" ∧
    (setAll emptyStore [(polA, tenOClock), (polB, tenOClock)]).Get parseZero
      = some ⟨"a", "first", "ra", parseZero "2024-01-01T10:00:00Z"⟩ ∧
    polA.Updated.Before polWest.Updated = true ∧
    storedText (polWest, tenOClock) = "2024-01-01T06:00:00-05:00" ∧
    (setAll emptyStore [(polA, tenOClock), (polWest, tenOClock)]).Get parseZero
      = some ⟨"a", "first", "ra", parseZero "2024-01-01T10:00:00Z"⟩ :=
  ⟨rfl, rfl, rfl, rfl, rfl, rfl, rfl⟩

/-- After a run of `Set` calls whose stored RFC3339 texts are strictly increasing in the
byte order of the text, and above every text already in the table, `Get` returns the document
set last. -/
theorem get_after_increasing_texts (parse : String → Time) (s0 : DBStore)
    (calls : List (Policy × Time)) (last : Policy × Time) (hlast : calls.getLast? = some last)
    (hinc : (calls.map (fun c => textKey (storedText c))).Pairwise (· < ·))
    (h0 : ∀ r ∈ s0.rows, ∀ c ∈ calls, textKey r.updated < textKey (storedText c)) :
    (setAll s0 calls).Get parse
      = some ⟨normalizeID last.1.ID, last.1.Name, last.1.Raw, parse (storedText last)⟩ := by
  obtain ⟨hmem, hmax⟩ := setAll_last_is_max calls s0 last hlast hinc h0
  exact Get_of_strict_max parse (setAll s0 calls) (writtenRow last) last.1.Name hmem rfl hmax

/-- After a run of `Set` calls whose `updatedAt` values (the current time where the caller
supplies the zero time) are UTC times of the years 1 to 9999 in strictly increasing seconds,
on a table whose texts are all below those of the calls, `Get` returns the document set
last. -/
theorem get_after_utc_seconds (parse : String → Time) (s0 : DBStore)
    (calls : List (Policy × Time)) (last : Policy × Time) (hlast : calls.getLast? = some last)
    (hutc : ∀ c ∈ calls, (effectiveUpdated c.1 c.2).offset = 0 ∧
      0 ≤ (effectiveUpdated c.1 c.2).sec ∧ (effectiveUpdated c.1 c.2).sec < 315537897600)
    (hinc : (calls.map (fun c => (effectiveUpdated c.1 c.2).sec)).Pairwise (· < ·))
    (h0 : ∀ r ∈ s0.rows, ∀ c ∈ calls, textKey r.updated < textKey (storedText c)) :
    (setAll s0 calls).Get parse
      = some ⟨normalizeID last.1.ID, last.1.Name, last.1.Raw, parse (storedText last)⟩ := by
  apply get_after_increasing_texts parse s0 calls last hlast _ h0
  rw [List.pairwise_map] at hinc ⊢
  refine hinc.imp_of_mem ?_
  intro a b ha hb hab
  obtain ⟨ha1, ha2, _⟩ := hutc a ha
  obtain ⟨hb1, _, hb3⟩ := hutc b hb
  exact formatRFC3339_lt _ _ ha1 hb1 ha2 hab hb3

/-- One fetch cycle that stores two policies within the same second: `p2` is set last, a
tenth of a second after `p1`, and `Get` returns `p1`. -/
theorem sample_fetch_two_get_first :
    (setCalls (fetchPolicyOnce fetchTwoEnv "http://policy" (some emptyStore)).2).map
        (fun q => (q.ID, q.Updated))
      = [("p1", unixUTC 1704103200 100000000), ("p2", unixUTC 1704103200 200000000)] ∧
    (fetchPolicyOnce fetchTwoEnv "http://policy" (some emptyStore)).1
      = some ⟨[⟨"p1", some "n1", "\x7b\"id\":\"p1\"\x7d", "2024-01-01T10:00:00Z"⟩,
          ⟨"p2", some "n2", "\x7b\"id\":\"p2\"\x7d", "2024-01-01T10:00:00Z"⟩]⟩ ∧
    ((fetchPolicyOnce fetchTwoEnv "http://policy" (some emptyStore)).1.bind
        (fun st => st.Get parseZero)).map (·.ID) = some "p1" :=
  ⟨rfl, rfl, rfl⟩

/-- C5. `Set(p)` on an empty store followed by `Get()` returns a document with the name and
raw content of `p` and with the id of `p`, or `active` when that id is empty. For the default
policy that `service.New` seeds into an empty store these are `active`, `default` and the
default rule document. -/
theorem set_get_roundtrip (parse : String → Time) (p : Policy) (now : Time) :
    (∃ q, (emptyStore.Set (some p) now).Get parse = some q ∧
      q.ID = (if p.ID = "" then "active" else p.ID) ∧ q.Name = p.Name ∧ q.Raw = p.Raw) ∧
    (∃ q, (seedDefault parse emptyStore now).Get parse = some q ∧
      q.ID = "active" ∧ q.Name = "default" ∧ q.Raw = defaultPolicy.Raw) := by
  have hget : ∀ p : Policy, (emptyStore.Set (some p) now).Get parse
      = some ⟨normalizeID p.ID, p.Name, p.Raw, parse (formatRFC3339 (effectiveUpdated p now))⟩ :=
    fun p => rfl
  refine ⟨⟨_, hget p, rfl, rfl, rfl⟩, ?_⟩
  have hseed : seedDefault parse emptyStore now = emptyStore.Set (some defaultPolicy) now := rfl
  rw [hseed]
  exact ⟨_, hget defaultPolicy, rfl, rfl, rfl⟩

/-- C6 fails when the caller supplies an earlier `updatedAt`: policy `a` is stored with
`2024-01-01T10:00:00Z`, a second `Set` for the same id stamped 1970 overwrites it, and the
stored value is then `1970-01-01T00:00:00Z`, earlier than before and not the later of the
two. -/
theorem set_moves_updated_back :
    storedUpdated (emptyStore.Set (some ⟨"a", "first", "ra", tenOClock⟩) tenOClock) "a"
      = some "2024-01-01T10:00:00Z" ∧
    polOld.Updated.Before tenOClock = true ∧
    storedUpdated ((emptyStore.Set (some ⟨"a", "first", "ra", tenOClock⟩) tenOClock).Set
        (some polOld) tenOClock) "a"
      = some "1970-01-01T00:00:00Z" ∧
    textKey "1970-01-01T00:00:00Z" < textKey "2024-01-01T10:00:00Z" := by
  refine ⟨rfl, rfl, rfl, ?_⟩
  decide

/-- C6 (amended). After `Set(doc)` the `updated` text stored under the normalised id of `doc`
is the RFC3339 text of the caller-supplied value, or of the current time in UTC when the
caller supplied the zero time, whatever was stored under that id before. -/
theorem set_stores_supplied_updated (s : DBStore) (p : Policy) (now : Time) :
    storedUpdated (s.Set (some p) now) (if p.ID = "" then "active" else p.ID)
      = some (formatRFC3339 (if p.Updated.IsZero then now.UTC else p.Updated)) := by
  unfold storedUpdated DBStore.Set
  have h := find_upsert s.rows
    ⟨normalizeID p.ID, p.Name, p.Raw, formatRFC3339 (effectiveUpdated p now)⟩
  simp only at h
  have e : (if p.ID = "" then "active" else p.ID) = normalizeID p.ID := rfl
  rw [e, h]
  rfl

end policy

/-- C3 (amended) at a concrete input: the seeded default policy and three processes, two of
them named `cmd.exe`. -/
theorem enforcer_run_witness :
    seeded.Get parseZero = some seededPolicy ∧ seededPolicy.Raw ≠ "" ∧
    unmarshalRules seededPolicy.Raw = .ok ⟨1, rules⟩ ∧
    (policyEnforcer.Run parseZero unmarshalRules marshalBars seeded (.ok procs) tenOClock
      = ⟨violationsSpec marshalBars seededPolicy.ID tenOClock.UTC procs rules, none⟩ ∧
    (violationsSpec marshalBars seededPolicy.ID tenOClock.UTC procs rules).length
      = ((rules.filter isBlockProcess).map
          (fun r => procs.countP (fun q => q.Name = ruleField r "match"))).sum ∧
    (∀ e ∈ violationsSpec marshalBars seededPolicy.ID tenOClock.UTC procs rules,
      e.ID = 0 ∧ e.Timestamp = tenOClock.UTC ∧ e.Typ = "policy_violation" ∧
      ∃ r ∈ rules, ∃ q ∈ procs, isBlockProcess r = true ∧ q.Name = ruleField r "match" ∧
        e.Payload = marshalBars (Any.object [("policy_id", Any.string seededPolicy.ID),
          ("rule_id", Any.string (ruleField r "id")),
          ("process", Any.object [("name", Any.string q.Name), ("pid", Any.int q.Pid)])])) ∧
    ((∀ r ∈ rules, isBlockProcess r = true →
        (∃ m, r.lookup "match" = some (Any.string m)) ∧
          (∃ i, r.lookup "id" = some (Any.string i))) →
      policyEnforcer.Run parseZero unmarshalRules marshalBars seeded (.ok procs) tenOClock
        = ⟨violationsStrict marshalBars seededPolicy.ID tenOClock.UTC procs rules, none⟩)) :=
  ⟨rfl, by decide, rfl,
    enforcer_run parseZero unmarshalRules marshalBars seeded seededPolicy ⟨1, rules⟩ procs
      tenOClock rfl (by decide) rfl⟩

/-- The enforcer on the seeded default policy and the three sample processes returns two
violations, one per `cmd.exe`, each with its pid. -/
theorem sample_enforcer_violations :
    policyEnforcer.Run parseZero unmarshalRules marshalBars seeded (.ok procs) tenOClock
      = ⟨[⟨0, tenOClock, "policy_violation", "active|p1|cmd.exe|100"⟩,
          ⟨0, tenOClock, "policy_violation", "active|p1|cmd.exe|102"⟩], none⟩ := rfl

/-- A tick of the sample service on a new database: the failing module and the refused
transmission leave both events of the second module persisted. -/
theorem sample_tick_persists :
    (svc.runOnce events.emptyStore).1 = twoSaved ∧
    effects (svc.runOnce events.emptyStore).2
      = [Effect.save ev1, Effect.save ev2, Effect.send [ev1, ev2]] ∧
    ranNames (svc.runOnce events.emptyStore).2 = ["broken", "two", "silent"] :=
  ⟨rfl, rfl, rfl⟩

/-- C8 at a concrete input: the sample service. -/
theorem runOnce_sends_once_witness :
    svc.gc = some refusing ∧
    (effects (svc.runOnce events.emptyStore).2
      = effectsSpec (ranResults (svc.runOnce events.emptyStore).2) ∧
    effects (svc.runOnce events.emptyStore).2
      = effectsSpec ((tickRuns svc svc.mods.mods events.emptyStore).map (·.1)) ∧
    sendCalls (svc.runOnce events.emptyStore).2
      = sendCallsSpec svc refusing (tickRuns svc svc.mods.mods events.emptyStore) ∧
    (svc.runOnce events.emptyStore).1 = tickWorld svc svc.mods.mods events.emptyStore) :=
  ⟨rfl, runOnce_sends_once svc events.emptyStore refusing rfl⟩

/-- C9 fails for a status that is neither 2xx nor 400 or more: a response with status 304
makes `SendEvents` return success. -/
theorem sendEvents_304_succeeds :
    (NewHTTPClient "http://gateway").url ≠ "" ∧
    net304.roundTrip "http://gateway"
      "[\x7b\"id\":0,\"timestamp\":\"2024-01-01T10:00:00Z\",\"type\":\"sysinfo\",\"payload\":\"one\"\x7d]"
      = .ok 304 ∧
    ¬ ((200 : Int) ≤ 304 ∧ (304 : Int) < 300) ∧
    (NewHTTPClient "http://gateway").SendEvents net304 [ev1] = none := by
  refine ⟨by decide, rfl, by decide, rfl⟩

/-- C9 (amended) at a concrete input: status 503. -/
theorem sendEvents_by_status_witness :
    (NewHTTPClient "http://gateway").url ≠ "" ∧
    net503.marshal [ev1] = .ok
      "[\x7b\"id\":0,\"timestamp\":\"2024-01-01T10:00:00Z\",\"type\":\"sysinfo\",\"payload\":\"one\"\x7d]" ∧
    net503.newRequest (NewHTTPClient "http://gateway").url = none ∧
    net503.roundTrip (NewHTTPClient "http://gateway").url
      "[\x7b\"id\":0,\"timestamp\":\"2024-01-01T10:00:00Z\",\"type\":\"sysinfo\",\"payload\":\"one\"\x7d]"
      = .ok 503 ∧
    (((400 : Int) ≤ 503 → (NewHTTPClient "http://gateway").SendEvents net503 [ev1]
        = some ("gateway returned status " ++ toString (503 : Int))) ∧
     ((503 : Int) < 400 → (NewHTTPClient "http://gateway").SendEvents net503 [ev1] = none) ∧
     ((200 : Int) ≤ 503 ∧ (503 : Int) < 300 →
        (NewHTTPClient "http://gateway").SendEvents net503 [ev1] = none)) :=
  ⟨by decide, rfl, rfl, rfl,
    sendEvents_by_status net503 (NewHTTPClient "http://gateway") [ev1] _ 503 (by decide) rfl rfl
      rfl⟩

/-- C10 fails for a status that is neither 2xx nor 400 or more: a response with status 300
and a body that parses makes the cycle call `Set`, and the empty policy store then holds the
fetched policy. -/
theorem fetch_status_300_writes :
    ¬ ((200 : Int) ≤ 300 ∧ (300 : Int) < 300) ∧
    (fetchPolicyOnce (fetchEnv 300) "http://policy" (some policy.emptyStore)).1
      = some ⟨[⟨"p1", "n1", fetchedRaw, "2024-01-01T10:00:00Z"⟩]⟩ ∧
    setCalls (fetchPolicyOnce (fetchEnv 300) "http://policy" (some policy.emptyStore)).2
      = [⟨"p1", "n1", fetchedRaw, tenOClock⟩] := by
  refine ⟨by decide, rfl, rfl⟩

/-- C10 (amended) at a concrete input: status 404. -/
theorem fetch_failure_keeps_store_witness :
    ((∃ e, (fetchEnv 404).newRequest "http://policy" = some e) ∨
      (∃ e, (fetchEnv 404).get "http://policy" = .error e) ∨
      ∃ resp, (fetchEnv 404).get "http://policy" = .ok resp ∧
        (400 ≤ resp.StatusCode ∨ (∃ e, resp.Body = .error e) ∨
          ∃ b e, resp.Body = .ok b ∧ (fetchEnv 404).yamlUnmarshal b = .error e)) ∧
    ((fetchPolicyOnce (fetchEnv 404) "http://policy" (some policy.emptyStore)).1
        = some policy.emptyStore ∧
      setCalls (fetchPolicyOnce (fetchEnv 404) "http://policy" (some policy.emptyStore)).2
        = []) :=
  ⟨Or.inr (Or.inr ⟨⟨404, .ok fetchedBody⟩, rfl, Or.inl (by decide)⟩),
    fetch_failure_keeps_store (fetchEnv 404) "http://policy" (some policy.emptyStore)
      (Or.inr (Or.inr ⟨⟨404, .ok fetchedBody⟩, rfl, Or.inl (by decide)⟩))⟩

/-! ## Run loop and cancellation -/

theorem runLoop_spec {σ : Type} (svc : Service σ) : ∀ (passes : List Select) (w : σ),
    tickStarts (runLoop svc passes w).steps = (tickPasses passes).map (·.cancelled) ∧
    ((runLoop svc passes w).returned = true ↔
      ∃ p, stopPass passes = some p ∧ p.chosen = some Case.done) := by
  intro passes
  induction passes with
  | nil => intro w; simp [runLoop, tickStarts, tickPasses, stopPass]
  | cons p ps ih =>
    intro w
    cases hc : p.chosen with
    | none => simp [runLoop, hc, tickStarts, tickPasses, stopPass]
    | some c =>
      cases c with
      | done => simp [runLoop, hc, tickStarts, tickPasses, stopPass]
      | tick =>
        obtain ⟨h1, h2⟩ := ih (svc.runOnce w).1
        have e1 : tickPasses (p :: ps) = p :: tickPasses ps := by
          simp [tickPasses, List.takeWhile_cons, hc]
        have e2 : stopPass (p :: ps) = stopPass ps := by
          simp [stopPass, List.dropWhile_cons, hc]
        simp only [runLoop, hc, tickStarts, e1, e2, List.map_cons, h1]
        exact ⟨trivial, h2⟩

/-- C11 fails: `Run` starts ticks while cancellation is already signalled. With the signal
set before `Run` is called, the immediate first tick still starts and runs in full (both
events of the sample service are persisted) before the loop sees the signal and returns; and
a pass of the `select` at which the ticker and the signal are both ready may take the ticker,
which starts another tick. -/
theorem run_starts_tick_when_cancelled :
    tickStarts (svc.Run (.ok sqliteSave) refusing true [onlyCancelled] events.emptyStore).steps
      = [true] ∧
    (svc.Run (.ok sqliteSave) refusing true [onlyCancelled] events.emptyStore).world
      = twoSaved ∧
    (svc.Run (.ok sqliteSave) refusing true [onlyCancelled] events.emptyStore).returned
      = true ∧
    bothTakeTick.chosen = some Case.tick ∧
    tickStarts (svc.Run (.ok sqliteSave) refusing false [bothTakeTick, onlyCancelled]
      events.emptyStore).steps = [false, true] :=
  ⟨rfl, rfl, rfl, rfl, rfl⟩

/-- C11 (amended). When the event store opens, `Run` starts the immediate first tick
whatever the state of the cancellation signal, and then one tick for every pass of the
`select` that takes the ticker case, up to the first pass that does not; `Run` returns exactly
when that pass takes the cancellation case, and no tick starts after it. A pass at which only
the cancellation signal is ready takes the cancellation case, and the cancellation case is
taken only when the signal is set. When the event store does not open, `Run` returns without
a tick. -/
theorem run_ticks_until_done {σ : Type} (svc : Service σ)
    (save : Event → σ → Option String × σ) (send : Events → σ → Option String × σ)
    (cancelledAtStart : Bool) (passes : List Select) (w : σ) :
    tickStarts (svc.Run (.ok save) send cancelledAtStart passes w).steps
      = cancelledAtStart :: (tickPasses passes).map (·.cancelled) ∧
    ((svc.Run (.ok save) send cancelledAtStart passes w).returned = true ↔
      ∃ p, stopPass passes = some p ∧ p.chosen = some Case.done) ∧
    (∀ p : Select, p.tickReady = false → p.cancelled = true → p.chosen = some Case.done) ∧
    (∀ p : Select, p.chosen = some Case.done → p.cancelled = true) ∧
    (∀ e : String,
      tickStarts (svc.Run (.error e) send cancelledAtStart passes w).steps = [] ∧
      (svc.Run (.error e) send cancelledAtStart passes w).returned = true) := by
  refine ⟨?_, ?_, ?_, ?_, ?_⟩
  · have h := (runLoop_spec { mods := svc.mods, store := save, gc := some send } passes
      (Service.runOnce { mods := svc.mods, store := save, gc := some send } w).1).1
    simp only [Service.Run, tickStarts, h]
  · exact (runLoop_spec { mods := svc.mods, store := save, gc := some send } passes
      (Service.runOnce { mods := svc.mods, store := save, gc := some send } w).1).2
  · intro p h1 h2
    simp [Select.chosen, h1, h2]
  · intro p h
    unfold Select.chosen at h
    cases ht : p.tickReady <;> cases hc : p.cancelled <;> cases hp : p.pickTick <;>
      simp [ht, hc, hp] at h ⊢
  · intro e
    exact ⟨rfl, rfl⟩

/-! ## Transmitted ids -/

/-- A tick of the built-in service on a new database: the three transmitted events carry the
id 0 while the persisted records have the ids 1, 2 and 3. -/
theorem sample_builtin_tick :
    (sentBatches (builtinSvc.runOnce events.emptyStore).2).map (fun b => b.map (·.ID))
      = [[0], [0], [0]] ∧
    (builtinSvc.runOnce events.emptyStore).1.rows.map (·.id) = [1, 2, 3] :=
  ⟨rfl, rfl⟩

end Sentinel
